import Mathlib

/-!
Verification of the auto-cert certificate/nginx deployment tool.

The JavaScript sources are shallowly embedded: strings are `List Char`,
JavaScript regular-expression scans are embedded as explicit character
scanners with the same matching semantics (leftmost match, lazy or greedy
quantifiers as in the concrete pattern), filesystem effects are explicit
state passing, and fallible code returns `Except`.
-/

set_option maxHeartbeats 1000000
set_option maxRecDepth 100000

namespace AutoCert

/-! ## Generic string machinery (JS `String.prototype.includes`, regex scans) -/

/-- JS `haystack.includes(needle)`: substring test. -/
def hasSubstr (h n : List Char) : Bool :=
  n.isPrefixOf h ||
    match h with
    | [] => false
    | _ :: t => hasSubstr t n

/-- Index of the first occurrence of `n` in `h` (leftmost match position). -/
def findSub (n : List Char) : List Char → Option Nat
  | [] => if n.isEmpty then some 0 else none
  | c :: t => if n.isPrefixOf (c :: t) then some 0 else (findSub n t).map (· + 1)

/-- One step of a global regex scan: `try` attempts a match at the head of the
string and returns the parsed result together with the unconsumed remainder. -/
def scanFuel (tryM : List Char → Option (α × List Char)) : Nat → List Char → List α
  | 0, _ => []
  | _ + 1, [] => []
  | f + 1, c :: cs =>
    match tryM (c :: cs) with
    | some (x, r) => x :: scanFuel tryM f r
    | none => scanFuel tryM f cs

/-- Global regex scan (JS `regex.exec` loop with the `g` flag): repeatedly find
the leftmost match, emit it, and continue after it. -/
def scanAll (tryM : List Char → Option (α × List Char)) (s : List Char) : List α :=
  scanFuel tryM s.length s

/-- A matcher consumes part of its input: the remainder is strictly shorter. -/
def Consuming (tryM : List Char → Option (α × List Char)) : Prop :=
  ∀ s x r, tryM s = some (x, r) → r.length < s.length

/-- No match of a pattern whose literal head is `lit` can start inside `a`
when `a` is followed by `b`. -/
def NoMarkStart (lit a b : List Char) : Prop :=
  ∀ i < a.length, ¬ lit.isPrefixOf ((a ++ b).drop i)

instance (lit a b : List Char) : Decidable (NoMarkStart lit a b) := by
  unfold NoMarkStart
  infer_instance

/-- Single-pass check that no match of `lit` starts at any of the first `k`
positions of `s`: the linear-time equivalent of checking `NoMarkStart`
position by position. -/
def noMarkStartB (lit : List Char) : Nat → List Char → Bool
  | 0, _ => true
  | k+1, s => !(lit.isPrefixOf s) && noMarkStartB lit k s.tail

/-! ## NginxManager: string constants -/

/-- JS `\s` character class (ASCII part, which is all the config text uses). -/
def isWs (c : Char) : Bool :=
  c = ' ' || c = '\t' || c = '\n' || c = '\r' || c = '\x0b' || c = '\x0c'

def litLocation : List Char := ("location").toList

def litServer : List Char := ("server").toList

/-- Normalised block head rebuilt by `parseServerBlocks`. -/
def litServerBrace : List Char := ("server \x7b").toList

/-- The two-character sequence a lazy `([\s\S]*?)\n\x7d` group stops before. -/
def nlBrace : List Char := ['\n', '\x7d']

def lit443 : List Char := ("listen 443").toList

def litSslCert : List Char := ("ssl_certificate").toList

def lit80 : List Char := ("listen 80").toList

def litWellKnown : List Char := (".well-known/acme-challenge").toList

def litReturn301 : List Char := ("return 301").toList

/-- JS `Array.prototype.join(sep)`. -/
def joinSep (sep : List Char) : List (List Char) → List Char
  | [] => []
  | [a] => a
  | a :: b :: t => a ++ sep ++ joinSep sep (b :: t)

/-! ## NginxManager: regex embeddings -/

/-- Match of `location\s+[^\x7b]+\x7b[^\x7d]+\x7d` at the head of `s`
(the pattern used by `createHttpsServerFromHttp` to extract location blocks).
Returns the matched text and the remainder. -/
def tryLoc (s : List Char) : Option (List Char × List Char) :=
  if litLocation.isPrefixOf s then
    let u := s.drop 8
    match u with
    | [] => none
    | w :: _ =>
      if isWs w then
        match findSub ['\x7b'] u with
        | none => none
        | some k =>
          if 2 ≤ k then
            match findSub ['\x7d'] (u.drop (k + 1)) with
            | none => none
            | some j =>
              if 1 ≤ j then
                some (s.take (8 + k + 1 + j + 1), s.drop (8 + k + 1 + j + 1))
              else none
          else none
      else none
  else none

/-- All matches of the location pattern (JS `httpBlock.match(/.../g)`). -/
def matchLocations (s : List Char) : List (List Char) :=
  scanAll tryLoc s

/-- Match of `server\s*\x7b([\s\S]*?)\n\x7d` at the head of `s`, already
rebuilt to the block text `parseServerBlocks` pushes:
`'server \x7b' + match[1] + '\n\x7d'`. -/
def tryServer (s : List Char) : Option (List Char × List Char) :=
  if litServer.isPrefixOf s then
    let u := s.drop 6
    let k := (u.takeWhile isWs).length
    if (u.drop k).take 1 = ['\x7b'] then
      match findSub nlBrace (u.drop (k + 1)) with
      | none => none
      | some j =>
        some (litServerBrace ++ (u.drop (k + 1)).take j ++ nlBrace,
              s.drop (6 + k + 1 + j + 2))
    else none
  else none

/-- `NginxManager.parseServerBlocks`: global scan of
`/server\s*\x7b([\s\S]*?)\n\x7d/g`, each match pushed as
`'server \x7b' + match[1] + '\n\x7d'`. -/
def parseServerBlocks (content : List Char) : List (List Char) :=
  scanAll tryServer content

/-- Head match of `server\s*\x7b` (used by the ACME-location insertion
replace); returns the length of the matched opener. -/
def tryServerOpen (s : List Char) : Option Nat :=
  if litServer.isPrefixOf s then
    let u := s.drop 6
    let k := (u.takeWhile isWs).length
    if (u.drop k).take 1 = ['\x7b'] then some (6 + k + 1) else none
  else none

/-- JS `str.replace(/(server\s*\x7b[\s\S]*?)(\x7d)/, '$1' + ins + '$2')`:
find the leftmost position where the whole pattern matches and insert `ins`
just before the matched closing brace.  `none` when there is no match. -/
def replaceAux (ins : List Char) : List Char → Option (List Char)
  | [] => none
  | c :: cs =>
    match tryServerOpen (c :: cs) with
    | some o =>
      match findSub ['\x7d'] ((c :: cs).drop o) with
      | some j =>
        some ((c :: cs).take (o + j) ++ ins ++ (c :: cs).drop (o + j))
      | none => (replaceAux ins cs).map (c :: ·)
    | none => (replaceAux ins cs).map (c :: ·)

/-- JS `String.prototype.replace` leaves the string unchanged on no match. -/
def jsReplaceServerIns (s ins : List Char) : List Char :=
  (replaceAux ins s).getD s

/-- The ACME challenge location text inserted by `transformHttpToHttps`
before the first closing brace of the matched `server` block. -/
def acmeLocationIns : List Char :=
  ("    location /.well-known/acme-challenge/ \x7b\n        alias /var/www/html/.well-known/acme-challenge/;\n    \x7d\n\n").toList

/-! ## NginxManager: config generation and the HTTP→HTTPS transform -/

/-- `path.posix.join(a, b)` for the non-degenerate inputs the tool builds. -/
def posixJoin (a b : List Char) : List Char :=
  match a.getLast? with
  | some '/' => a ++ b
  | _ => a ++ '/' :: b

/-- `NginxManager.generateSslConfig` (the SSH-aware revision): the SSL
directive fragment spliced into every generated HTTPS server block. -/
def generateSslConfig (certDir : List Char) : List Char :=
  ("\n    # SSL 证书\n    ssl_certificate ").toList ++
  posixJoin certDir (("fullchain.pem").toList) ++
  (";\n    ssl_certificate_key ").toList ++
  posixJoin certDir (("privkey.pem").toList) ++
  (";\n\n    # SSL 协议与加密套件\n    ssl_protocols TLSv1.2 TLSv1.3;\n    ssl_ciphers ECDHE-ECDSA-AES128-GCM-SHA256:ECDHE-RSA-AES128-GCM-SHA256:ECDHE-ECDSA-AES256-GCM-SHA384:ECDHE-RSA-AES256-GCM-SHA384:ECDHE-ECDSA-CHACHA20-POLY1305:ECDHE-RSA-CHACHA20-POLY1305:DHE-RSA-AES128-GCM-SHA256:DHE-RSA-AES256-GCM-SHA384;\n    ssl_prefer_server_ciphers off;\n\n    # Session 配置\n    ssl_session_timeout 1d;\n    ssl_session_cache shared:SSL:50m;\n    ssl_session_tickets off;\n\n    # 安全响应头\n    add_header Strict-Transport-Security \"max-age=63072000; includeSubDomains; preload\" always;\n    add_header X-Frame-Options \"SAMEORIGIN\" always;\n    add_header X-Content-Type-Options \"nosniff\" always;\n    add_header X-XSS-Protection \"1; mode=block\" always;\n    add_header Referrer-Policy \"strict-origin-when-cross-origin\" always;\n").toList

/-- Location-block filter of `createHttpsServerFromHttp`: drop matches that
contain `return 301` or the ACME challenge path. -/
def keepLocation (l : List Char) : Bool :=
  !(hasSubstr l litReturn301) && !(hasSubstr l litWellKnown)

/-- `NginxManager.createHttpsServerFromHttp`: extract the location blocks of
the HTTP server block, drop redirect/ACME ones, and splice the rest into a
fresh HTTPS server block template. -/
def createHttpsServerFromHttp (httpBlock domain certDir : List Char)
    (enableHttp2 : Bool) : List Char :=
  let locations := (matchLocations httpBlock).filter keepLocation
  let h2 := if enableHttp2 then (" http2").toList else []
  ("server \x7b\n    listen 443 ssl").toList ++ h2 ++
  ("\n    listen [::]:443 ssl").toList ++ h2 ++
  ("\n    server_name ").toList ++ domain ++ (";").toList ++
  generateSslConfig certDir ++ ("\n").toList ++
  joinSep (("\n").toList) (locations.map (("    ").toList ++ ·)) ++
  ("\n\x7d").toList

/-- Everything of the synthesized HTTPS block before its location blocks. -/
def httpsHeader (domain certDir : List Char) (enableHttp2 : Bool) : List Char :=
  let h2 := if enableHttp2 then (" http2").toList else []
  ("server \x7b\n    listen 443 ssl").toList ++ h2 ++
  ("\n    listen [::]:443 ssl").toList ++ h2 ++
  ("\n    server_name ").toList ++ domain ++ (";").toList ++
  generateSslConfig certDir ++ ("\n").toList

/-- The location blocks of the synthesized HTTPS block, indented and
newline-joined, plus the closing brace. -/
def locationsPart (ls : List (List Char)) : List Char :=
  joinSep (("\n").toList) (ls.map (("    ").toList ++ ·)) ++ ("\n\x7d").toList

/-- Error text of `transformHttpToHttps` when no server block parses. -/
def errNoParse : List Char := ("无法解析现有 nginx 配置").toList

/-- Error text of `transformHttpToHttps` when no HTTP block is convertible. -/
def errNoHttp : List Char := ("未找到可转换的 HTTP server 块").toList

/-- `block.includes('listen 443') || block.includes('ssl_certificate')`:
the present-with-TLS textual classification. -/
def hasHttpsMarker (content : List Char) : Bool :=
  hasSubstr content lit443 || hasSubstr content litSslCert

/-- The ACME path is appended to an HTTP block only when not already
present (`if (!block.includes('.well-known/acme-challenge'))`). -/
def addAcmeLocation (block : List Char) : List Char :=
  if hasSubstr block litWellKnown then block
  else jsReplaceServerIns block acmeLocationIns

/-- One iteration of the `transformHttpToHttps` loop body. -/
def transformStep (domain certDir : List Char) (enableHttp2 : Bool)
    (acc : List (List Char) × Bool) (block : List Char) :
    List (List Char) × Bool :=
  if hasHttpsMarker block then
    (acc.1 ++ [block], true)
  else if hasSubstr block lit80 then
    (acc.1 ++ [addAcmeLocation block,
               createHttpsServerFromHttp block domain certDir enableHttp2],
     true)
  else
    (acc.1 ++ [block], acc.2)

/-- `NginxManager.transformHttpToHttps`: parse the server blocks, keep
existing HTTPS blocks, augment HTTP blocks with the ACME location and a
synthesized HTTPS companion, and rejoin with blank lines.  Throws when the
file does not parse or no HTTP block was found. -/
def transformHttpToHttps (content domain certDir : List Char)
    (enableHttp2 : Bool := true) : Except (List Char) (List Char) :=
  let serverBlocks := parseServerBlocks content
  if serverBlocks.isEmpty then .error errNoParse
  else
    let r := serverBlocks.foldl (transformStep domain certDir enableHttp2) ([], false)
    if r.2 then .ok (joinSep (("\n\n").toList) r.1)
    else .error errNoHttp

/-- Options reaching `generateConfig` from the deploy paths. -/
structure GenOpts where
  domain : List Char
  upstream : Option (List Char) := none
  upstreamPort : Option Nat := none
  webRoot : Option (List Char) := none
  remoteCertsDir : Option (List Char) := none
  enableHttp2 : Bool := true

/-- `NginxManager.generateConfig` (SSH-aware revision): full two-block
configuration for a fresh site. -/
def generateConfig (cfgWebRoot certsDir : List Char) (o : GenOpts) : List Char :=
  let upstream := o.upstream.getD (("localhost").toList)
  let upstreamPort := o.upstreamPort.getD 3000
  let webRoot := o.webRoot.getD cfgWebRoot
  let certDir :=
    match o.remoteCertsDir with
    | some r => posixJoin r o.domain
    | none => posixJoin certsDir o.domain
  let h2 := if o.enableHttp2 then (" http2").toList else []
  ("server \x7b\n    listen 80;\n    listen [::]:80;\n    server_name ").toList ++
  o.domain ++
  (";\n    \n    location /.well-known/acme-challenge/ \x7b\n        alias ").toList ++
  webRoot ++
  ("/.well-known/acme-challenge/;\n    \x7d\n    \n    location / \x7b\n        return 301 https://$server_name$request_uri;\n    \x7d\n\x7d\n\nserver \x7b\n    listen 443 ssl").toList ++
  h2 ++
  (";\n    listen [::]:443 ssl").toList ++
  h2 ++
  (";\n    server_name ").toList ++
  o.domain ++ (";\n").toList ++
  generateSslConfig certDir ++
  ("\n    location / \x7b\n        proxy_pass http://").toList ++
  upstream ++ (":").toList ++ (Nat.repr upstreamPort).toList ++
  (";\n        proxy_http_version 1.1;\n        proxy_set_header Upgrade $http_upgrade;\n        proxy_set_header Connection \x27upgrade\x27;\n        proxy_set_header Host $host;\n        proxy_set_header X-Real-IP $remote_addr;\n        proxy_set_header X-Forwarded-For $proxy_add_x_forwarded_for;\n        proxy_set_header X-Forwarded-Proto $scheme;\n        proxy_cache_bypass $http_upgrade;\n    \x7d\n\x7d").toList

/-! ## NginxManager: deployment state machines -/

/-- The filesystem state a deploy touches: the domain's config file and the
timestamped backups taken for that exact path. -/
structure Fs where
  conf : Option (List Char)
  backups : List (Nat × List Char)
deriving DecidableEq

/-- The caller-controlled flags of `deploy` (`options.backup !== false`,
`options.reload !== false`). -/
structure DeployOpts where
  backup : Bool := true
  reload : Bool := true
  upstream : Option (List Char) := none
  upstreamPort : Option Nat := none
  webRoot : Option (List Char) := none

/-- Outcomes of the external commands the deploy runs (`nginx -t`,
`nginx -s reload`). -/
structure CmdOracle where
  testPasses : Bool
  reloadOk : Bool

/-- `DeploymentOutcome` of one deploy call. -/
inductive DeployOutcome where
  | skipped (reason : List Char)
  | deployed (action : List Char)
  | failed (msg : List Char)
deriving DecidableEq

def reasonAlreadyHasHttps : List Char := ("already_has_https").toList

def errTestFailed : List Char := ("nginx 配置测试失败").toList

def errRemoteTestFailed : List Char := ("远程 nginx 配置测试失败").toList

def errReloadFailed : List Char := ("nginx 重载失败").toList

/-- `NginxManager.backupConfig`: copy the existing config (when present) to
`<path>.backup.<Date.now()>`. -/
def backupConfig (fs : Fs) (now : Nat) : Fs :=
  match fs.conf with
  | some c => { fs with backups := (now, c) :: fs.backups }
  | none => fs

/-- Backup selected by `ls -t <path>.backup.* | head -1`: greatest mtime. -/
def latestBackup : List (Nat × List Char) → Option (Nat × List Char)
  | [] => none
  | b :: bs =>
    match latestBackup bs with
    | none => some b
    | some m => if b.1 < m.1 then some m else some b

/-- `NginxManager.restoreBackup`: copy the most recent backup (if any) back
over the config path. -/
def restoreBackup (fs : Fs) : Fs :=
  match latestBackup fs.backups with
  | some b => { fs with conf := some b.2 }
  | none => fs

/-- Shared tail of `deployLocal`: `nginx -t`, rollback on failure when an
existing config was backed up, then `nginx -s reload`. -/
def localTestAndReload (opts : DeployOpts) (orc : CmdOracle)
    (existed : Bool) (action : List Char) (fs : Fs) : DeployOutcome × Fs :=
  if orc.testPasses then
    if opts.reload then
      if orc.reloadOk then (.deployed action, fs)
      else (.failed errReloadFailed, fs)
    else (.deployed action, fs)
  else
    if existed && opts.backup then (.failed errTestFailed, restoreBackup fs)
    else (.failed errTestFailed, fs)

/-- `NginxManager.deployLocal` (the revision with the HTTP→HTTPS transform):
classify the existing config, skip when it already has TLS, otherwise back
up, transform (or generate from scratch), write, self-test with rollback,
and reload. -/
def deployLocal (cfgWebRoot certsDir : List Char) (opts : DeployOpts)
    (orc : CmdOracle) (fs : Fs) (now : Nat) (domain : List Char) :
    DeployOutcome × Fs :=
  let certDir := posixJoin certsDir domain
  match fs.conf with
  | some content =>
    if hasHttpsMarker content then
      (.skipped reasonAlreadyHasHttps, fs)
    else
      let fs1 := if opts.backup then backupConfig fs now else fs
      match transformHttpToHttps content domain certDir with
      | .error e => (.failed e, fs1)
      | .ok newConfig =>
        localTestAndReload opts orc true (("transformed").toList)
          { fs1 with conf := some newConfig }
  | none =>
    let config := generateConfig cfgWebRoot certsDir
      { domain := domain, upstream := opts.upstream,
        upstreamPort := opts.upstreamPort, webRoot := opts.webRoot }
    localTestAndReload opts orc false (("created").toList)
      { fs with conf := some config }

/-- `NginxManager.deployRemote` (same revision): like `deployLocal` over the
SSH gateway, except the backup is unconditional and a failed remote
self-test only raises — no backup is restored. -/
def deployRemote (opts : DeployOpts) (orc : CmdOracle) (fs : Fs) (now : Nat)
    (domain remoteCertsDir : List Char) : DeployOutcome × Fs :=
  let certDir := posixJoin remoteCertsDir domain
  match fs.conf with
  | some content =>
    if hasHttpsMarker content then
      (.skipped reasonAlreadyHasHttps, fs)
    else
      let fs1 := backupConfig fs now
      match transformHttpToHttps content domain certDir with
      | .error e => (.failed e, fs1)
      | .ok newConfig =>
        let fs2 := { fs1 with conf := some newConfig }
        if orc.testPasses then
          if opts.reload then
            if orc.reloadOk then (.deployed (("transformed").toList), fs2)
            else (.failed errReloadFailed, fs2)
          else (.deployed (("transformed").toList), fs2)
        else (.failed errRemoteTestFailed, fs2)
  | none =>
    let config := generateConfig (("/var/www/html").toList) [] -- certsDir unused remotely
      { domain := domain,
        upstream := some (opts.upstream.getD (("localhost").toList)),
        upstreamPort := some (opts.upstreamPort.getD 3000),
        webRoot := some (opts.webRoot.getD (("/var/www/html").toList)),
        remoteCertsDir := some remoteCertsDir }
    let fs2 := { fs with conf := some config }
    if orc.testPasses then
      if opts.reload then
        if orc.reloadOk then (.deployed (("created").toList), fs2)
        else (.failed errReloadFailed, fs2)
      else (.deployed (("created").toList), fs2)
    else (.failed errRemoteTestFailed, fs2)

/-- `NginxManager.deploy`: dispatch on whether an SSH client was provided. -/
def deploy (remoteMode : Bool) (cfgWebRoot certsDir remoteCertsDir : List Char)
    (opts : DeployOpts) (orc : CmdOracle) (fs : Fs) (now : Nat)
    (domain : List Char) : DeployOutcome × Fs :=
  if remoteMode then deployRemote opts orc fs now domain remoteCertsDir
  else deployLocal cfgWebRoot certsDir opts orc fs now domain

/-! ## CertificateManager: PEM bundle parsing and persistence -/

def pemBegin : List Char := ("-----BEGIN CERTIFICATE-----").toList

def pemEnd : List Char := ("-----END CERTIFICATE-----").toList

/-- Match of the lazy pattern
`-----BEGIN CERTIFICATE-----[\s\S]*?-----END CERTIFICATE-----` at the head
of `s`. -/
def tryPem (s : List Char) : Option (List Char × List Char) :=
  if pemBegin.isPrefixOf s then
    match findSub pemEnd (s.drop 27) with
    | none => none
    | some j => some (s.take (27 + j + 25), s.drop (27 + j + 25))
  else none

/-- `cert.match(/-----BEGIN CERTIFICATE-----[\s\S]*?-----END CERTIFICATE-----/g)`
(`null` becomes the empty list, as after `|| []`). -/
def splitCerts (bundle : List Char) : List (List Char) :=
  scanAll tryPem bundle

def errBadCert : List Char := ("无效的证书数据").toList

/-- The artifact files `saveCertificate` writes, in write order, as
(file name, content). -/
structure SaveResult where
  writes : List (List Char × List Char)
  error : Option (List Char)
deriving DecidableEq

/-- `CertificateManager.saveCertificate`: write the private key, split the
downloaded bundle on certificate boundaries, and write leaf, chain and
fullchain — or throw with only the key written when no block is found. -/
def saveCertificate (privateKey bundle : List Char) : SaveResult :=
  let keyWrite := ((("cert.key").toList, privateKey))
  match splitCerts bundle with
  | [] => { writes := [keyWrite], error := some errBadCert }
  | c :: rest =>
    let chain := joinSep (("\n").toList) rest
    let fullchain := if rest.isEmpty then c else bundle
    { writes := [keyWrite,
                 ((("cert.pem").toList, c)),
                 ((("chain.pem").toList, chain)),
                 ((("fullchain.pem").toList, fullchain))],
      error := none }

/-! ## CertificateManager: the domain registry (`domains.yaml`) -/

/-- The `ssh` block of a registry entry. -/
structure SshCfg where
  host : Option (List Char) := none
  port : Option Nat := none
  username : Option (List Char) := none
  privateKey : Option (List Char) := none
  password : Option (List Char) := none
  remoteWebRoot : Option (List Char) := none
  remoteNginxConfDir : Option (List Char) := none
  remoteCertsDir : Option (List Char) := none
deriving DecidableEq

/-- One entry of `domains.yaml`. -/
structure DomainEntry where
  issuedAt : Option (List Char) := none
  email : Option (List Char) := none
  webRoot : Option (List Char) := none
  ssh : Option SshCfg := none
deriving DecidableEq

/-- The registry, a keyed map of domain entries. -/
def Registry := List Char → Option DomainEntry

/-- JS truthiness of the `webRoot` argument (`webRoot && \x7b webRoot \x7d`). -/
def webRootTruthy : Option (List Char) → Bool
  | some w => !w.isEmpty
  | none => false

/-- `CertificateManager.saveDomainConfig` (SSH-aware revision): spread the
existing entry, overwrite `issuedAt` and `email`, and overwrite `webRoot`
only when the argument is truthy. -/
def saveDomainConfig (reg : Registry) (domain : List Char)
    (nowIso : List Char) (cfgEmail : Option (List Char))
    (webRoot : Option (List Char)) : Registry :=
  let existing := (reg domain).getD {}
  let entry : DomainEntry :=
    { existing with
      issuedAt := some nowIso
      email := cfgEmail
      webRoot := if webRootTruthy webRoot then webRoot else existing.webRoot }
  fun d => if d = domain then some entry else reg d

/-! ## CertificateManager: renewal -/

/-- `options.daysBeforeExpiry || 30` (JS `||`: 0 falls back to the default). -/
def renewThreshold (optDays : Option Int) : Int :=
  match optDays with
  | none => 30
  | some d => if d = 0 then 30 else d

/-- `CertificateManager.renew`: unless forced, read the certificate's
days-until-expiry and return `null` when the margin exceeds the threshold;
otherwise re-issue. -/
def renew (force : Bool) (optDays : Option Int) (daysUntilExpiry : Int)
    (issueResult : List Char) : Option (List Char) :=
  if !force && daysUntilExpiry > renewThreshold optDays then none
  else some issueResult

/-! ## AutoCert.renewAll -/

/-- What one domain's `renew` call does, as observed by `renewAll`:
a truthy result, the `null` "not due" result, or a thrown error. -/
inductive RenewOut where
  | issued
  | notDue
  | failedWith (msg : List Char)
deriving DecidableEq

/-- The three buckets `renewAll` accumulates. -/
structure RenewResults where
  renewed : List (List Char) := []
  skipped : List (List Char) := []
  failed : List (List Char × List Char) := []
deriving DecidableEq

/-- Loop body of `renewAll`: try `renew`, catch and record errors. -/
def renewAllStep (f : List Char → RenewOut) (acc : RenewResults)
    (domain : List Char) : RenewResults :=
  match f domain with
  | .issued => { acc with renewed := acc.renewed ++ [domain] }
  | .notDue => { acc with skipped := acc.skipped ++ [domain] }
  | .failedWith e => { acc with failed := acc.failed ++ [(domain, e)] }

/-- `AutoCert.renewAll`: renew every registered domain independently,
recording failures per domain without aborting the batch. -/
def renewAll (f : List Char → RenewOut) (domains : List (List Char)) :
    RenewResults :=
  domains.foldl (renewAllStep f) {}

/-! ## CertificateManager: the challenge phase of `issueLocal` -/

/-- An ACME authorization as the orchestrator sees it: its identifier value
and its challenges as (type, token) pairs. -/
structure Authz where
  ident : List Char
  challenges : List (List Char × List Char)

/-- `authz.challenges.find(c => c.type === challengeType)`. -/
def findChallenge (a : Authz) (challengeType : List Char) :
    Option (List Char × List Char) :=
  a.challenges.find? (fun c => c.1 = challengeType)

def errUnsupported : List Char := ("授权不支持验证").toList

/-- `CertificateManager.processChallenge`: throw when the authorization
offers no challenge of the requested type, otherwise run the
prepare/complete/poll sequence (its outcome abstracted as an oracle). -/
def processChallenge (challengeType : List Char)
    (oracle : Authz → Except (List Char) Unit) (a : Authz) :
    Except (List Char) Unit :=
  match findChallenge a challengeType with
  | none => .error errUnsupported
  | some _ => oracle a

/-- The sequential challenge loop of `issueLocal`; stops at the first
failure. -/
def runChallenges (challengeType : List Char)
    (oracle : Authz → Except (List Char) Unit) :
    List Authz → Except (List Char) Unit
  | [] => .ok ()
  | a :: rest =>
    match processChallenge challengeType oracle a with
    | .error e => .error e
    | .ok _ => runChallenges challengeType oracle rest

/-- The cleanup loop of `issueLocal`: for every authorization with a
matching challenge, remove its proof file (recorded as
(identifier, token)). -/
def cleanupList (challengeType : List Char) (authzs : List Authz) :
    List (List Char × List Char) :=
  authzs.filterMap (fun a => (findChallenge a challengeType).map (fun c => (a.ident, c.2)))

/-- The challenge phase of `CertificateManager.issueLocal`: process every
authorization; on success clean up every proof unless the caller opted out;
on failure clean nothing and re-raise. Returns the outcome together with
the cleanups performed. -/
def issueChallengePhase (challengeType : List Char)
    (oracle : Authz → Except (List Char) Unit) (cleanupEnabled : Bool)
    (authzs : List Authz) :
    Except (List Char) Unit × List (List Char × List Char) :=
  match runChallenges challengeType oracle authzs with
  | .error e => (.error e, [])
  | .ok _ =>
    (.ok (), if cleanupEnabled then cleanupList challengeType authzs else [])

/-! ## Dns01Handler: SHA-256 (Node `crypto.createHash('sha256')`) -/

/-- 32-bit truncation. -/
def m32 (x : Nat) : Nat := x % 4294967296

/-- 32-bit right rotation. -/
def rotr32 (x n : Nat) : Nat := m32 ((x >>> n) ||| (x <<< (32 - n)))

def shaS0 (x : Nat) : Nat := (rotr32 x 7) ^^^ (rotr32 x 18) ^^^ (x >>> 3)

def shaS1 (x : Nat) : Nat := (rotr32 x 17) ^^^ (rotr32 x 19) ^^^ (x >>> 10)

def shaE0 (x : Nat) : Nat := (rotr32 x 2) ^^^ (rotr32 x 13) ^^^ (rotr32 x 22)

def shaE1 (x : Nat) : Nat := (rotr32 x 6) ^^^ (rotr32 x 11) ^^^ (rotr32 x 25)

def shaCh (x y z : Nat) : Nat := (x &&& y) ^^^ ((4294967295 - x) &&& z)

def shaMaj (x y z : Nat) : Nat := (x &&& y) ^^^ (x &&& z) ^^^ (y &&& z)

/-- The SHA-256 round constants. -/
def shaK : List Nat :=
  [1116352408, 1899447441, 3049323471, 3921009573, 961987163,
   1508970993, 2453635748, 2870763221, 3624381080, 310598401,
   607225278, 1426881987, 1925078388, 2162078206, 2614888103,
   3248222580, 3835390401, 4022224774, 264347078, 604807628,
   770255983, 1249150122, 1555081692, 1996064986, 2554220882,
   2821834349, 2952996808, 3210313671, 3336571891, 3584528711,
   113926993, 338241895, 666307205, 773529912, 1294757372,
   1396182291, 1695183700, 1986661051, 2177026350, 2456956037,
   2730485921, 2820302411, 3259730800, 3345764771, 3516065817,
   3600352804, 4094571909, 275423344, 430227734, 506948616,
   659060556, 883997877, 958139571, 1322822218, 1537002063,
   1747873779, 1955562222, 2024104815, 2227730452, 2361852424,
   2428436474, 2756734187, 3204031479, 3329325298]

/-- The SHA-256 initial hash value. -/
def shaH0 : List Nat :=
  [1779033703, 3144134277, 1013904242, 2773480762,
   1359893119, 2600822924, 528734635, 1541459225]

/-- SHA-256 padding: append `0x80`, zeros to 56 mod 64, and the bit length
as a big-endian 64-bit integer. -/
def shaPad (msg : List Nat) : List Nat :=
  let len := msg.length
  let zeros := (64 + 55 - len % 64) % 64
  let bits := len * 8
  msg ++ [0x80] ++ List.replicate zeros 0 ++
    [(bits >>> 56) % 256, (bits >>> 48) % 256, (bits >>> 40) % 256,
     (bits >>> 32) % 256, (bits >>> 24) % 256, (bits >>> 16) % 256,
     (bits >>> 8) % 256, bits % 256]

/-- Split the padded message into 64-byte blocks (fuel-based so that it
reduces inside the kernel). -/
def toBlocksFuel : Nat → List Nat → List (List Nat)
  | 0, _ => []
  | _ + 1, [] => []
  | f + 1, a :: rest => ((a :: rest).take 64) :: toBlocksFuel f (rest.drop 63)

/-- Split the padded message into 64-byte blocks. -/
def toBlocks (l : List Nat) : List (List Nat) := toBlocksFuel l.length l

/-- Big-endian 32-bit words of one 64-byte block. -/
def toWords : List Nat → List Nat
  | a :: b :: c :: d :: rest => (a <<< 24 ||| b <<< 16 ||| c <<< 8 ||| d) :: toWords rest
  | _ => []

/-- Extend the 16 schedule words to 64. -/
def extendSchedule (ws : List Nat) : Nat → List Nat
  | 0 => ws
  | n + 1 =>
    let t := ws.length
    let w := m32 (shaS1 (ws.getD (t - 2) 0) + ws.getD (t - 7) 0 +
                  shaS0 (ws.getD (t - 15) 0) + ws.getD (t - 16) 0)
    extendSchedule (ws ++ [w]) n

/-- One SHA-256 compression round. -/
def shaRound (st : List Nat) (wk : Nat × Nat) : List Nat :=
  match st with
  | [a, b, c, d, e, f, g, h] =>
    let t1 := m32 (h + shaE1 e + shaCh e f g + wk.2 + wk.1)
    let t2 := m32 (shaE0 a + shaMaj a b c)
    [m32 (t1 + t2), a, b, c, m32 (d + t1), e, f, g]
  | st => st

/-- Compress one 64-byte block into the running hash. -/
def compressBlock (h : List Nat) (block : List Nat) : List Nat :=
  let ws := extendSchedule (toWords block) 48
  let st := (ws.zip shaK).foldl shaRound h
  (h.zip st).map (fun p => m32 (p.1 + p.2))

/-- SHA-256 digest as 32 bytes. -/
def sha256 (msg : List Nat) : List Nat :=
  let h := (toBlocks (shaPad msg)).foldl compressBlock shaH0
  h.flatMap (fun w => [(w >>> 24) % 256, (w >>> 16) % 256, (w >>> 8) % 256, w % 256])

/-! ## Dns01Handler: base64url (Node `digest('base64url')`) -/

/-- The URL-safe base64 alphabet. -/
def b64Alphabet : List Char :=
  ("ABCDEFGHIJKLMNOPQRSTUVWXYZabcdefghijklmnopqrstuvwxyz0123456789-_").toList

def b64Char (n : Nat) : Char := b64Alphabet.getD n 'A'

/-- Unpadded URL-safe base64 of a byte list (Node's `base64url`). -/
def base64urlEncode : List Nat → List Char
  | [] => []
  | [a] => [b64Char (a >>> 2), b64Char ((a % 4) <<< 4)]
  | [a, b] =>
    [b64Char (a >>> 2), b64Char (((a % 4) <<< 4) ||| (b >>> 4)),
     b64Char ((b % 16) <<< 2)]
  | a :: b :: c :: rest =>
    b64Char (a >>> 2) :: b64Char (((a % 4) <<< 4) ||| (b >>> 4)) ::
    b64Char (((b % 16) <<< 2) ||| (c >>> 6)) :: b64Char (c % 64) ::
    base64urlEncode rest

/-- UTF-8 bytes of a string (Node hashes strings as UTF-8). -/
def utf8Bytes (s : List Char) : List Nat :=
  s.flatMap (fun c =>
    let n := c.toNat
    if n < 0x80 then [n]
    else if n < 0x800 then [0xc0 ||| (n >>> 6), 0x80 ||| (n % 64)]
    else if n < 0x10000 then
      [0xe0 ||| (n >>> 12), 0x80 ||| ((n >>> 6) % 64), 0x80 ||| (n % 64)]
    else
      [0xf0 ||| (n >>> 18), 0x80 ||| ((n >>> 12) % 64),
       0x80 ||| ((n >>> 6) % 64), 0x80 ||| (n % 64)])

/-! ## Dns01Handler: record computation and prepare -/

/-- `Dns01Handler.getRecordName`. -/
def getRecordName (domain : List Char) : List Char :=
  ("_acme-challenge.").toList ++ domain

/-- `Dns01Handler.computeRecordValue`: base64url-encoded SHA-256 digest of
the key authorization. -/
def computeRecordValue (keyAuthorization : List Char) : List Char :=
  base64urlEncode (sha256 (utf8Bytes keyAuthorization))

def errNeedProvider : List Char := ("使用 DNS-01 验证需要指定 DNS 服务商").toList

/-- `Dns01Handler.prepare`: requires a provider, computes the record name
and value, and waits a fixed 60000 ms for propagation before returning.
The returned triple is (record name, record value, wait in ms). -/
def dnsPrepare (provider : Option (List Char)) (keyAuthorization domain : List Char) :
    Except (List Char) (List Char × List Char × Nat) :=
  match provider with
  | none => .error errNeedProvider
  | some _ => .ok (getRecordName domain, computeRecordValue keyAuthorization, 60000)

/-! ## Concrete fixtures used by witnesses and counterexamples -/

/-- A hand-tuned secure config (contains `listen 443`). -/
def tlsConfigFx : List Char := ("server \x7b\n    listen 443 ssl;\n    server_name example.com;\n\x7d").toList

/-- A plain HTTP-only config. -/
def httpConfigFx : List Char :=
  ("server \x7b\n    listen 80;\n    server_name example.com;\n    location / \x7b\n        proxy_pass http://localhost:8080;\n    \x7d\n\x7d").toList

/-- A balanced server block whose nested closing brace sits at column 0. -/
def hardBlockFx : List Char :=
  ("server \x7b\n    listen 80;\n    location / \x7b\n        proxy_pass http://u;\n\x7d\n    listen 8080;\n\x7d").toList

/-- What the lazy scan actually extracts from `hardBlockFx`. -/
def hardBlockTrunc : List Char :=
  ("server \x7b\n    listen 80;\n    location / \x7b\n        proxy_pass http://u;\n\x7d").toList

/-- A server-block body with nested braces whose closers are all indented. -/
def nestedBodyFx : List Char :=
  ("\n    listen 80;\n    location / \x7b\n        proxy_pass http://u;\n    \x7d").toList

/-- An HTTP block whose only location both proxies and contains a
`return 301` directive (so it is not redirect-only). -/
def mixedLocBlockFx : List Char :=
  ("server \x7b\n    listen 80;\n    location / \x7b\n        proxy_pass http://localhost:3000;\n        return 301 https://e;\n    \x7d\n\x7d").toList

def pemBlockA : List Char := pemBegin ++ ((("\nAA\n").toList) ++ pemEnd)

def pemBlockB : List Char := pemBegin ++ ((("\nBB\n").toList) ++ pemEnd)

/-- A downloaded bundle with leading junk around two certificate blocks. -/
def junkBundleFx : List Char :=
  (("JUNK\n").toList) ++ (pemBlockA ++ ((("\n").toList) ++ (pemBlockB ++ [])))

/-- A registry with two domains, the first carrying an ssh block. -/
def sshCfgFx : SshCfg :=
  { host := some (("198.51.100.7").toList), port := some 2222,
    username := some (("deploy").toList),
    privateKey := some (("~/.ssh/id_rsa").toList),
    remoteWebRoot := some (("/srv/www").toList),
    remoteNginxConfDir := some (("/etc/nginx/conf.d").toList),
    remoteCertsDir := some (("/opt/auto-cert/certs").toList) }

def entryAFx : DomainEntry :=
  { issuedAt := some (("2024-01-01T00:00:00.000Z").toList),
    email := some (("old@example.com").toList),
    webRoot := some (("/var/www/a").toList), ssh := some sshCfgFx }

def entryBFx : DomainEntry :=
  { issuedAt := none, email := none, webRoot := none, ssh := none }

def regFx : Registry := fun d =>
  if d = (("a.example").toList) then some entryAFx
  else if d = (("b.example").toList) then some entryBFx
  else none

/-- Two authorizations, each offering an http-01 challenge. -/
def authzAFx : Authz :=
  { ident := (("a.example").toList),
    challenges := [((("http-01").toList), (("tokA").toList)),
                   ((("dns-01").toList), (("tokA2").toList))] }

def authzBFx : Authz :=
  { ident := (("b.example").toList),
    challenges := [((("http-01").toList), (("tokB").toList))] }


/-! ## Lemmas: prefixes and first-occurrence search -/

theorem starts_iff : ∀ (a b : List Char), a.isPrefixOf b = true ↔ ∃ t, b = a ++ t := by
  intro a
  induction a with
  | nil =>
    intro b
    simp [List.isPrefixOf]
  | cons x xs ih =>
    intro b
    cases b with
    | nil =>
      simp [List.isPrefixOf]
    | cons y ys =>
      simp only [List.isPrefixOf, Bool.and_eq_true, beq_iff_eq, ih ys]
      constructor
      · rintro ⟨rfl, t, rfl⟩
        exact ⟨t, rfl⟩
      · rintro ⟨t, h⟩
        rw [List.cons_append, List.cons.injEq] at h
        exact ⟨h.1.symm, t, h.2⟩

theorem starts_append_congr :
    ∀ (a u : List Char), a.length ≤ u.length →
      ∀ (v w : List Char), a.isPrefixOf (u ++ v) = a.isPrefixOf (u ++ w) := by
  intro a
  induction a with
  | nil => intro u _ v w; simp [List.isPrefixOf]
  | cons x xs ih =>
    intro u hu v w
    cases u with
    | nil => simp at hu
    | cons y ys =>
      simp only [List.cons_append, List.isPrefixOf, List.append_eq]
      rw [ih ys (by simpa using hu) v w]

theorem starts_length_le {a b : List Char} (h : a.isPrefixOf b = true) :
    a.length ≤ b.length := by
  obtain ⟨t, rfl⟩ := (starts_iff a b).1 h
  simp

theorem findSub_decomp :
    ∀ (h : List Char) (n : List Char) (j : Nat), findSub n h = some j →
      ∃ p q, h = p ++ (n ++ q) ∧ p.length = j ∧
        ∀ i < j, ¬ n.isPrefixOf (h.drop i) = true := by
  intro h
  induction h with
  | nil =>
    intro n j hj
    simp only [findSub] at hj
    split at hj
    · rename_i he
      obtain rfl : n = [] := by simpa [List.isEmpty_iff] using he
      obtain rfl : j = 0 := by simpa using hj.symm
      exact ⟨[], [], rfl, rfl, by omega⟩
    · exact Option.noConfusion hj
  | cons c t ih =>
    intro n j hj
    simp only [findSub] at hj
    split at hj
    · rename_i hp
      obtain ⟨q, hq⟩ := (starts_iff n (c :: t)).1 hp
      obtain rfl : j = 0 := by simpa using hj.symm
      exact ⟨[], q, by simpa using hq, rfl, by omega⟩
    · rename_i hp
      cases hft : findSub n t with
      | none => rw [hft] at hj; simp at hj
      | some j' =>
        rw [hft] at hj
        obtain rfl : j = j' + 1 := by simpa using hj.symm
        obtain ⟨p, q, hpq, hlen, hmin⟩ := ih n j' hft
        refine ⟨c :: p, q, by simp [hpq], by simp [hlen], ?_⟩
        intro i hi
        cases i with
        | zero => simpa using hp
        | succ i' => simpa using hmin i' (by omega)

theorem findSub_zero {n h : List Char} (hp : n.isPrefixOf h = true) :
    findSub n h = some 0 := by
  cases h with
  | nil =>
    obtain ⟨t, ht⟩ := (starts_iff n []).1 hp
    have hn : n = [] := by
      cases n with
      | nil => rfl
      | cons a as => simp at ht
    simp [hn, findSub, List.isEmpty]
  | cons c t => simp [findSub, hp]

theorem findSub_construct :
    ∀ (p : List Char) (n q : List Char),
      (∀ i < p.length, ¬ n.isPrefixOf ((p ++ (n ++ q)).drop i) = true) →
      findSub n (p ++ (n ++ q)) = some p.length := by
  intro p
  induction p with
  | nil =>
    intro n q _
    simpa using findSub_zero ((starts_iff n (n ++ q)).2 ⟨q, rfl⟩)
  | cons c p' ih =>
    intro n q hmin
    have h0 : ¬ n.isPrefixOf ((c :: p') ++ (n ++ q)) = true := by
      simpa using hmin 0 (by simp)
    have hrec := ih n q (fun i hi => by
      simpa using hmin (i + 1) (by simpa using Nat.succ_lt_succ hi))
    simp only [List.cons_append, findSub, List.append_eq]
    rw [if_neg (by simpa using h0)]
    rw [hrec]
    rfl


theorem noMarkStartB_sound (lit : List Char) :
    ∀ (k : Nat) (s : List Char), noMarkStartB lit k s = true →
      ∀ i, i < k → lit.isPrefixOf (s.drop i) = false := by
  intro k
  induction k with
  | zero => intro s h i hi; omega
  | succ k ih =>
    intro s h i hi
    rw [noMarkStartB, Bool.and_eq_true] at h
    have h1 := h
    cases i with
    | zero =>
      simpa using h1.1
    | succ j =>
      have hstep := ih s.tail h1.2 j (by omega)
      have hdt : s.tail.drop j = s.drop (j + 1) := by
        rw [← List.drop_one, List.drop_drop, Nat.add_comm]
      rw [hdt] at hstep
      exact hstep

/-- A successful linear scan over `a ++ b` up to the length of `a` certifies
`NoMarkStart`. -/
theorem noMarkStart_of_scan (lit a b : List Char)
    (h : noMarkStartB lit a.length (a ++ b) = true) : NoMarkStart lit a b := by
  intro i hi
  have hf := noMarkStartB_sound lit a.length (a ++ b) h i hi
  simp [hf]

theorem noMark_shift (n p q q' : List Char)
    (h : ∀ i < p.length, ¬ n.isPrefixOf ((p ++ (n ++ q)).drop i) = true) :
    ∀ i < p.length, ¬ n.isPrefixOf ((p ++ (n ++ q')).drop i) = true := by
  intro i hi
  have key : ∀ z : List Char,
      (p ++ (n ++ z)).drop i = ((p ++ n).drop i) ++ z := by
    intro z
    rw [← List.append_assoc, List.drop_append_eq_append_drop]
    have : i - (p ++ n).length = 0 := by
      simp only [List.length_append]; omega
    rw [this]
    simp
  rw [key q']
  rw [starts_append_congr n ((p ++ n).drop i) (by simp; omega) q' q]
  rw [← key q]
  exact h i hi

/-- Combination: when no occurrence of `n` starts strictly inside `p ++ n`,
the first occurrence of `n` in `p ++ n ++ q` is at `p.length`, for any `q`. -/
theorem findSub_mark (n p q : List Char)
    (h : NoMarkStart n p n) :
    findSub n (p ++ (n ++ q)) = some p.length := by
  apply findSub_construct
  apply noMark_shift n p []
  intro i hi
  have := h i hi
  simpa using this

/-! ## Lemmas: global regex scans -/

theorem scanFuel_mono {α : Type} (tryM : List Char → Option (α × List Char))
    (hc : Consuming tryM) :
    ∀ (f : Nat) (s : List Char), s.length ≤ f →
      scanFuel tryM f s = scanFuel tryM s.length s := by
  intro f
  induction f using Nat.strong_induction_on with
  | _ f ih =>
    intro s hs
    match f, s with
    | 0, s =>
      have : s = [] := List.length_eq_zero.1 (Nat.le_zero.1 hs)
      subst this
      rfl
    | f + 1, [] => rfl
    | f + 1, c :: cs =>
      simp only [scanFuel, List.length_cons]
      cases htry : tryM (c :: cs) with
      | some xr =>
        obtain ⟨x, r⟩ := xr
        have hr : r.length < cs.length + 1 := hc _ _ _ htry
        have h1 : scanFuel tryM f r = scanFuel tryM r.length r :=
          ih f (by omega) r (by simp at hs; omega)
        have h2 : scanFuel tryM cs.length r = scanFuel tryM r.length r :=
          ih cs.length (by simp at hs; omega) r (by omega)
        change x :: scanFuel tryM f r = x :: scanFuel tryM cs.length r
        rw [h1, h2]
      | none =>
        have h1 : scanFuel tryM f cs = scanFuel tryM cs.length cs :=
          ih f (by omega) cs (by simp at hs; omega)
        change scanFuel tryM f cs = scanFuel tryM cs.length cs
        rw [h1]

theorem scanAll_cons_match {α : Type} (tryM : List Char → Option (α × List Char))
    (hc : Consuming tryM) {s : List Char} {x : α} {r : List Char}
    (h : tryM s = some (x, r)) :
    scanAll tryM s = x :: scanAll tryM r := by
  have hr : r.length < s.length := hc _ _ _ h
  cases s with
  | nil => simp at hr
  | cons c cs =>
    simp only [scanAll, List.length_cons, scanFuel, h]
    rw [scanFuel_mono tryM hc cs.length r (by simp at hr; omega)]

theorem scanAll_skip {α : Type} (tryM : List Char → Option (α × List Char)) :
    ∀ (a b : List Char), (∀ i < a.length, tryM ((a ++ b).drop i) = none) →
      scanAll tryM (a ++ b) = scanAll tryM b := by
  intro a
  induction a with
  | nil => intro b _; rfl
  | cons c a' ih =>
    intro b hnone
    have h0 : tryM (c :: (a' ++ b)) = none := by simpa using hnone 0 (by simp)
    have step : scanAll tryM ((c :: a') ++ b) = scanAll tryM (a' ++ b) := by
      simp only [scanAll, List.cons_append, List.length_cons, scanFuel, List.append_eq]
      rw [h0]
    rw [step]
    exact ih b (fun i hi => by
      simpa using hnone (i + 1) (by simpa using Nat.succ_lt_succ hi))

theorem scanFuel_mem {α : Type} (tryM : List Char → Option (α × List Char)) :
    ∀ (f : Nat) (s : List Char) (x : α), x ∈ scanFuel tryM f s →
      ∃ s' r, tryM s' = some (x, r) := by
  intro f
  induction f with
  | zero => intro s x hx; simp [scanFuel] at hx
  | succ f ih =>
    intro s x hx
    cases s with
    | nil => simp [scanFuel] at hx
    | cons c cs =>
      simp only [scanFuel] at hx
      cases htry : tryM (c :: cs) with
      | some xr =>
        rw [htry] at hx
        rcases List.mem_cons.1 hx with rfl | hx'
        · exact ⟨c :: cs, xr.2, by simpa using htry⟩
        · exact ih _ _ hx'
      | none =>
        rw [htry] at hx
        exact ih _ _ hx

theorem scanAll_mem {α : Type} (tryM : List Char → Option (α × List Char))
    {s : List Char} {x : α} (hx : x ∈ scanAll tryM s) :
    ∃ s' r, tryM s' = some (x, r) :=
  scanFuel_mem tryM s.length s x hx

/-! ## Lemmas: the three concrete matchers -/

theorem tryLoc_none {s : List Char} (h : ¬ litLocation.isPrefixOf s = true) :
    tryLoc s = none := by
  unfold tryLoc
  rw [if_neg h]

theorem tryServer_none {s : List Char} (h : ¬ litServer.isPrefixOf s = true) :
    tryServer s = none := by
  unfold tryServer
  rw [if_neg h]

theorem tryPem_none {s : List Char} (h : ¬ pemBegin.isPrefixOf s = true) :
    tryPem s = none := by
  unfold tryPem
  rw [if_neg h]

theorem tryLoc_consuming : Consuming tryLoc := by
  intro s x r h
  have hpos : 0 < s.length ∧ ∃ n, 0 < n ∧ r = s.drop n := by
    unfold tryLoc at h
    split at h
    case isFalse => exact Option.noConfusion h
    case isTrue hp =>
      have h8 : 8 ≤ s.length := by
        have := starts_length_le hp
        simpa [litLocation] using this
      simp only [] at h
      split at h
      · exact Option.noConfusion h
      · split at h
        case isFalse => exact Option.noConfusion h
        case isTrue =>
          split at h
          · exact Option.noConfusion h
          · split at h
            case isFalse => exact Option.noConfusion h
            case isTrue =>
              split at h
              · exact Option.noConfusion h
              · split at h
                case isFalse => exact Option.noConfusion h
                case isTrue =>
                  refine ⟨by omega, _, ?_, (congrArg Prod.snd (Option.some.inj h)).symm⟩
                  omega
  obtain ⟨hs, n, hn, rfl⟩ := hpos
  simp only [List.length_drop]
  omega

theorem tryServer_consuming : Consuming tryServer := by
  intro s x r h
  have hpos : 0 < s.length ∧ ∃ n, 0 < n ∧ r = s.drop n := by
    unfold tryServer at h
    split at h
    case isFalse => exact Option.noConfusion h
    case isTrue hp =>
      have h6 : 6 ≤ s.length := by
        have := starts_length_le hp
        simpa [litServer] using this
      simp only [] at h
      split at h
      case isFalse => exact Option.noConfusion h
      case isTrue =>
        split at h
        · exact Option.noConfusion h
        · refine ⟨by omega, _, ?_, (congrArg Prod.snd (Option.some.inj h)).symm⟩
          omega
  obtain ⟨hs, n, hn, rfl⟩ := hpos
  simp only [List.length_drop]
  omega

theorem tryPem_consuming : Consuming tryPem := by
  intro s x r h
  have hpos : 0 < s.length ∧ ∃ n, 0 < n ∧ r = s.drop n := by
    unfold tryPem at h
    split at h
    case isFalse => exact Option.noConfusion h
    case isTrue hp =>
      have h27 : 27 ≤ s.length := by
        have := starts_length_le hp
        simpa [pemBegin] using this
      split at h
      · exact Option.noConfusion h
      · refine ⟨by omega, _, ?_, (congrArg Prod.snd (Option.some.inj h)).symm⟩
        omega
  obtain ⟨hs, n, hn, rfl⟩ := hpos
  simp only [List.length_drop]
  omega

/-- A PEM block whose body has no early end-marker occurrence is matched
exactly, whatever follows it. -/
theorem tryPem_mk (g r : List Char) (hg : NoMarkStart pemEnd g pemEnd) :
    tryPem ((pemBegin ++ (g ++ pemEnd)) ++ r) = some (pemBegin ++ (g ++ pemEnd), r) := by
  have hp : pemBegin.isPrefixOf ((pemBegin ++ (g ++ pemEnd)) ++ r) = true :=
    (starts_iff _ _).2 ⟨(g ++ pemEnd) ++ r, by simp⟩
  have hdrop : ((pemBegin ++ (g ++ pemEnd)) ++ r).drop 27 = g ++ (pemEnd ++ r) := by
    rw [List.append_assoc, List.drop_left' (by decide : pemBegin.length = 27)]
    simp
  have hfind : findSub pemEnd (g ++ (pemEnd ++ r)) = some g.length :=
    findSub_mark pemEnd g r hg
  have hlen : (pemBegin ++ (g ++ pemEnd)).length = 27 + g.length + 25 := by
    simp only [List.length_append]
    rw [(by decide : pemBegin.length = 27), (by decide : pemEnd.length = 25)]
    omega
  unfold tryPem
  rw [if_pos hp, hdrop, hfind]
  show some (List.take (27 + g.length + 25) ((pemBegin ++ (g ++ pemEnd)) ++ r),
             List.drop (27 + g.length + 25) ((pemBegin ++ (g ++ pemEnd)) ++ r)) =
       some (pemBegin ++ (g ++ pemEnd), r)
  rw [List.take_left' hlen, List.drop_left' hlen]

/-- A normalised server block whose body has no newline-brace before the
final one is matched exactly when it ends the input. -/
theorem tryServer_mk (g : List Char) (hg : NoMarkStart nlBrace g nlBrace) :
    tryServer (litServerBrace ++ (g ++ nlBrace)) =
      some (litServerBrace ++ (g ++ nlBrace), []) := by
  have hs : litServerBrace ++ (g ++ nlBrace) = litServer ++ (' ' :: '\x7b' :: (g ++ nlBrace)) := by
    rw [(by decide : litServerBrace = litServer ++ (' ' :: '\x7b' :: []))]
    simp
  have hp : litServer.isPrefixOf (litServerBrace ++ (g ++ nlBrace)) = true := by
    rw [hs]; exact (starts_iff _ _).2 ⟨_, rfl⟩
  have hdrop6 : (litServerBrace ++ (g ++ nlBrace)).drop 6 = ' ' :: '\x7b' :: (g ++ nlBrace) := by
    rw [hs, List.drop_left' (by decide : litServer.length = 6)]
  have htw : List.takeWhile isWs (' ' :: '\x7b' :: (g ++ nlBrace)) = [' '] := rfl
  have hfind : findSub nlBrace ((' ' :: '\x7b' :: (g ++ nlBrace)).drop 2) = some g.length := by
    show findSub nlBrace (g ++ nlBrace) = some g.length
    have := findSub_mark nlBrace g [] hg
    simpa using this
  have hslen : (litServerBrace ++ (g ++ nlBrace)).length = 10 + g.length := by
    simp only [List.length_append]
    rw [(by decide : litServerBrace.length = 8), (by decide : nlBrace.length = 2)]
    omega
  unfold tryServer
  rw [if_pos hp]
  simp only [hdrop6, htw]
  rw [if_pos (by rfl : ((' ' :: '\x7b' :: (g ++ nlBrace)).drop [' '].length).take 1 = ['\x7b'])]
  simp only [List.length_cons, List.length_nil]
  rw [hfind]
  have htake : ((' ' :: '\x7b' :: (g ++ nlBrace)).drop (0 + 1 + 1)).take g.length = g := by
    show (g ++ nlBrace).take g.length = g
    exact List.take_left g nlBrace
  have hdropAll : (litServerBrace ++ (g ++ nlBrace)).drop (6 + (0 + 1) + 1 + g.length + 2) = [] := by
    apply List.drop_eq_nil_of_le
    omega
  simp only [Option.some.injEq, Prod.mk.injEq]
  constructor
  · show litServerBrace ++ ((' ' :: '\x7b' :: (g ++ nlBrace)).drop (0 + 1 + 1)).take g.length ++ nlBrace =
      litServerBrace ++ (g ++ nlBrace)
    rw [htake]
    simp
  · exact hdropAll

/-- A location block matched by the location pattern is matched again,
exactly, whatever follows it (its body is brace-free by construction). -/
theorem tryLoc_stable {s x r : List Char} (h : tryLoc s = some (x, r)) :
    ∀ r', tryLoc (x ++ r') = some (x, r') := by
  unfold tryLoc at h
  split at h
  case isFalse => exact Option.noConfusion h
  case isTrue hp =>
  simp only [] at h
  split at h
  · exact Option.noConfusion h
  · rename_i w tail hu
    split at h
    case isFalse => exact Option.noConfusion h
    case isTrue hw =>
      split at h
      · exact Option.noConfusion h
      · rename_i k hk
        split at h
        case isFalse => exact Option.noConfusion h
        case isTrue h2k =>
          split at h
          · exact Option.noConfusion h
          · rename_i j hj
            split at h
            case isFalse => exact Option.noConfusion h
            case isTrue h1j =>
              obtain ⟨hx, hr⟩ := Prod.mk.injEq _ _ _ _ ▸ Option.some.inj h
              -- decompose the brace-free segments
              obtain ⟨p, q, hpq, hpk, minp⟩ := findSub_decomp _ _ _ hk
              have hdropk : (s.drop 8).drop (k + 1) = q := by
                rw [hpq]
                have hrw : (p ++ (['\x7b'] ++ q)) = (p ++ ['\x7b']) ++ q := by simp
                rw [hrw]
                exact List.drop_left' (by simp [hpk])
              rw [hdropk] at hj
              obtain ⟨pb, qb, hqb, hpbj, minb⟩ := findSub_decomp _ _ _ hj
              -- the shape of s and of the match x
              obtain ⟨t0, ht0⟩ := (starts_iff _ _).1 hp
              have hlit8 : litLocation.length = 8 := by decide
              have ht0u : t0 = s.drop 8 := by
                rw [ht0, List.drop_left' hlit8]
              have hs : s = litLocation ++ (p ++ ('\x7b' :: (pb ++ ('\x7d' :: qb)))) := by
                conv_lhs => rw [ht0]
                rw [ht0u, hpq, hqb]
                simp
              have hXfull : s = (litLocation ++ (p ++ ('\x7b' :: (pb ++ ['\x7d'])))) ++ qb := by
                rw [hs]; simp
              have hXlen : (litLocation ++ (p ++ ('\x7b' :: (pb ++ ['\x7d'])))).length
                  = 8 + k + 1 + j + 1 := by
                simp [hlit8, hpk, hpbj]
                omega
              have hxX : x = litLocation ++ (p ++ ('\x7b' :: (pb ++ ['\x7d']))) := by
                rw [← hx, hXfull, List.take_left' hXlen]
              have hrq : r = qb := by
                rw [← hr, hXfull, List.drop_left' hXlen]
              -- p is nonempty and starts with w
              have hwp : w :: tail = p ++ (['\x7b'] ++ q) := by rw [← hu, hpq]
              obtain ⟨p', rfl⟩ : ∃ p', p = w :: p' := by
                cases p with
                | nil => simp [← hpk] at h2k
                | cons p0 p' =>
                  have hp0 : w = p0 := by
                    have := hwp
                    simp only [List.cons_append] at this
                    exact (List.cons.injEq _ _ _ _ ▸ this).1
                  exact ⟨p', by rw [hp0]⟩
              -- now evaluate tryLoc on x ++ r'
              intro r'
              have hp' : litLocation.isPrefixOf (x ++ r') = true := by
                rw [hxX]
                exact (starts_iff _ _).2
                  ⟨((w :: p') ++ ('\x7b' :: (pb ++ ['\x7d']))) ++ r', by simp⟩
              have hu' : (x ++ r').drop 8 = w :: (p' ++ ('\x7b' :: (pb ++ ('\x7d' :: r')))) := by
                rw [hxX, List.append_assoc, List.drop_left' hlit8]
                simp
              have hk' : findSub ['\x7b'] ((w :: p') ++ ('\x7b' :: (pb ++ ('\x7d' :: r')))) = some k := by
                have hmin' := noMark_shift ['\x7b'] (w :: p') q (pb ++ ('\x7d' :: r'))
                  (by rw [← hpq]; intro i hi; rw [hpk] at hi; exact minp i hi)
                have := findSub_construct (w :: p') ['\x7b'] (pb ++ ('\x7d' :: r')) hmin'
                rw [hpk] at this
                simpa using this
              have hdropk' : ((w :: p') ++ ('\x7b' :: (pb ++ ('\x7d' :: r')))).drop (k + 1)
                  = pb ++ ('\x7d' :: r') := by
                have : ((w :: p') ++ ('\x7b' :: (pb ++ ('\x7d' :: r'))))
                    = ((w :: p') ++ ['\x7b']) ++ (pb ++ ('\x7d' :: r')) := by simp
                rw [this]
                exact List.drop_left' (by simp [← hpk])
              have hj' : findSub ['\x7d'] (pb ++ ('\x7d' :: r')) = some j := by
                have hmin' := noMark_shift ['\x7d'] pb qb r'
                  (by rw [← hqb]; intro i hi; rw [hpbj] at hi; exact minb i hi)
                have := findSub_construct pb ['\x7d'] r' hmin'
                rw [hpbj] at this
                simpa using this
              have hXr'len : x.length = 8 + k + 1 + j + 1 := by
                rw [hxX]; exact hXlen
              unfold tryLoc
              rw [if_pos hp']
              simp only []
              rw [hu']
              simp only []
              rw [if_pos hw]
              have hkform : findSub ['\x7b'] (w :: (p' ++ ('\x7b' :: (pb ++ ('\x7d' :: r'))))) = some k := by
                simpa using hk'
              rw [hkform]
              simp only []
              rw [if_pos h2k]
              have hdform : (w :: (p' ++ ('\x7b' :: (pb ++ ('\x7d' :: r'))))).drop (k + 1)
                  = pb ++ ('\x7d' :: r') := by
                simpa using hdropk'
              rw [hdform, hj']
              simp only []
              rw [if_pos h1j]
              rw [List.take_left' hXr'len, List.drop_left' hXr'len]

theorem tryLoc_cons_ne {c : Char} (t : List Char) (hc : ('l' == c) = false) :
    tryLoc (c :: t) = none := by
  apply tryLoc_none
  rw [(by decide : litLocation = 'l' :: (("ocation").toList))]
  simp [List.isPrefixOf, hc]

theorem scanAll_skip_noMark {α : Type} (tryM : List Char → Option (α × List Char))
    (lit : List Char) (hn : ∀ s, ¬ lit.isPrefixOf s = true → tryM s = none)
    (a b : List Char) (hm : NoMarkStart lit a b) :
    scanAll tryM (a ++ b) = scanAll tryM b :=
  scanAll_skip tryM a b (fun i hi => hn _ (hm i hi))

theorem scanAll_loc_indent (X : List Char) :
    scanAll tryLoc ((("    ").toList) ++ X) = scanAll tryLoc X := by
  rw [(by decide : ("    ").toList = [' ', ' ', ' ', ' '])]
  apply scanAll_skip
  intro i hi
  simp only [List.length_cons, List.length_nil] at hi
  interval_cases i
  · exact tryLoc_cons_ne _ (by decide)
  · exact tryLoc_cons_ne _ (by decide)
  · exact tryLoc_cons_ne _ (by decide)
  · exact tryLoc_cons_ne _ (by decide)

theorem scanAll_loc_newline (X : List Char) :
    scanAll tryLoc ('\n' :: X) = scanAll tryLoc X := by
  have := scanAll_skip tryLoc ['\n'] X (by
    intro i hi
    simp only [List.length_cons, List.length_nil] at hi
    interval_cases i
    · exact tryLoc_cons_ne _ (by decide))
  simpa using this

/-- Rescanning the indented, newline-joined location blocks recovers
exactly the original list. -/
theorem scan_locationsPart (ls : List (List Char))
    (hst : ∀ l ∈ ls, ∀ r', tryLoc (l ++ r') = some (l, r')) :
    scanAll tryLoc (locationsPart ls) = ls := by
  induction ls with
  | nil =>
    show scanAll tryLoc (locationsPart []) = []
    decide
  | cons l rest ih =>
    have hstl := hst l (by simp)
    cases rest with
    | nil =>
      have hshape : locationsPart [l] = (("    ").toList) ++ (l ++ (("\n\x7d").toList)) := by
        show joinSep (("\n").toList) [(("    ").toList) ++ l] ++ (("\n\x7d").toList)
          = (("    ").toList) ++ (l ++ (("\n\x7d").toList))
        show ((("    ").toList) ++ l) ++ (("\n\x7d").toList)
          = (("    ").toList) ++ (l ++ (("\n\x7d").toList))
        simp
      rw [hshape, scanAll_loc_indent]
      rw [scanAll_cons_match tryLoc tryLoc_consuming (hstl (("\n\x7d").toList))]
      rw [(by decide : ("\n\x7d").toList = ['\n', '\x7d'])]
      rw [scanAll_loc_newline]
      rw [(by decide : scanAll tryLoc ['\x7d'] = ([] : List (List Char)))]
    | cons b t =>
      have hshape : locationsPart (l :: b :: t)
          = (("    ").toList) ++ (l ++ ('\n' :: locationsPart (b :: t))) := by
        show (((("    ").toList) ++ l) ++ (("\n").toList) ++
              joinSep (("\n").toList) (((("    ").toList) ++ b) :: t.map ((("    ").toList) ++ ·))) ++
              (("\n\x7d").toList)
          = (("    ").toList) ++ (l ++ ('\n' :: locationsPart (b :: t)))
        show (((("    ").toList) ++ l) ++ (("\n").toList) ++
              joinSep (("\n").toList) (((("    ").toList) ++ b) :: t.map ((("    ").toList) ++ ·))) ++
              (("\n\x7d").toList)
          = (("    ").toList) ++ (l ++ ('\n' ::
              (joinSep (("\n").toList) (((("    ").toList) ++ b) :: t.map ((("    ").toList) ++ ·)) ++
               (("\n\x7d").toList))))
        rw [(by decide : ("\n").toList = ['\n'])]
        simp
      rw [hshape, scanAll_loc_indent]
      rw [scanAll_cons_match tryLoc tryLoc_consuming (hstl _)]
      rw [scanAll_loc_newline]
      rw [ih (fun l' hl' => hst l' (by simp [hl']))]

/-- The synthesized HTTPS block splits into a header and the spliced
location blocks. -/
theorem createHttps_decomp (B d c : List Char) (h2 : Bool) :
    createHttpsServerFromHttp B d c h2
      = httpsHeader d c h2 ++ locationsPart ((matchLocations B).filter keepLocation) := by
  unfold createHttpsServerFromHttp httpsHeader locationsPart
  simp [List.append_assoc]

/-- Rescanning the synthesized HTTPS block finds exactly the kept location
blocks of the source HTTP block. -/
theorem matchLocations_createHttps (B d c : List Char) (h2 : Bool)
    (hkeep : ∀ l ∈ matchLocations B, keepLocation l = true)
    (hhdr : NoMarkStart litLocation (httpsHeader d c h2)
              (locationsPart (matchLocations B))) :
    matchLocations (createHttpsServerFromHttp B d c h2) = matchLocations B := by
  have hfilter : (matchLocations B).filter keepLocation = matchLocations B :=
    List.filter_eq_self.2 hkeep
  rw [createHttps_decomp, hfilter]
  show scanAll tryLoc _ = _
  rw [scanAll_skip_noMark tryLoc litLocation (fun _ hs => tryLoc_none hs) _ _ hhdr]
  exact scan_locationsPart (matchLocations B) (fun l hl =>
    have ⟨_, _, hsr⟩ := scanAll_mem tryLoc hl
    tryLoc_stable hsr)

/-! ## Lemmas: substring containment and the ACME insertion -/

theorem hasSubstr_iff (h n : List Char) :
    hasSubstr h n = true ↔ ∃ a b, h = a ++ (n ++ b) := by
  induction h with
  | nil =>
    rw [hasSubstr]
    simp only [Bool.or_false]
    rw [starts_iff]
    constructor
    · rintro ⟨t, ht⟩
      exact ⟨[], t, by simpa using ht⟩
    · rintro ⟨a, b, hab⟩
      obtain ⟨ha, hnb⟩ := List.append_eq_nil.1 hab.symm
      obtain ⟨hn, hb⟩ := List.append_eq_nil.1 hnb
      exact ⟨[], by simp [hn]⟩
  | cons c t ih =>
    rw [hasSubstr]
    simp only [Bool.or_eq_true, ih, starts_iff]
    constructor
    · rintro (⟨u, hu⟩ | ⟨a, b, hab⟩)
      · exact ⟨[], u, by simpa using hu⟩
      · exact ⟨c :: a, b, by simp [hab]⟩
    · rintro ⟨a, b, hab⟩
      cases a with
      | nil =>
        exact Or.inl ⟨b, by simpa using hab⟩
      | cons a0 a' =>
        right
        refine ⟨a', b, ?_⟩
        simpa using (List.cons.injEq _ _ _ _ ▸ hab).2

theorem hasSubstr_of_mid (a ins b n : List Char)
    (hmid : hasSubstr ins n = true) :
    hasSubstr ((a ++ ins) ++ b) n = true := by
  obtain ⟨u, v, huv⟩ := (hasSubstr_iff ins n).1 hmid
  exact (hasSubstr_iff _ n).2 ⟨a ++ u, v ++ b, by simp [huv]⟩

theorem replaceAux_shape :
    ∀ (s ins out : List Char), replaceAux ins s = some out →
      ∃ a b, out = (a ++ ins) ++ b := by
  intro s
  induction s with
  | nil => intro ins out h; exact Option.noConfusion h
  | cons c cs ih =>
    intro ins out h
    unfold replaceAux at h
    split at h
    · split at h
      · have := Option.some.inj h
        exact ⟨_, _, this.symm⟩
      · cases hrec : replaceAux ins cs with
        | none => rw [hrec] at h; exact Option.noConfusion h
        | some out' =>
          rw [hrec] at h
          obtain ⟨a, b, hab⟩ := ih ins out' hrec
          refine ⟨c :: a, b, ?_⟩
          have : out = c :: out' := by simpa using h.symm
          simp [this, hab]
    · cases hrec : replaceAux ins cs with
      | none => rw [hrec] at h; exact Option.noConfusion h
      | some out' =>
        rw [hrec] at h
        obtain ⟨a, b, hab⟩ := ih ins out' hrec
        refine ⟨c :: a, b, ?_⟩
        have : out = c :: out' := by simpa using h.symm
        simp [this, hab]

/-- When the block already serves the ACME path, the transform leaves the
plaintext block untouched. -/
theorem addAcme_present {block : List Char}
    (h : hasSubstr block litWellKnown = true) :
    addAcmeLocation block = block := by
  unfold addAcmeLocation
  rw [if_pos h]

/-- When the block does not serve the ACME path and the insertion pattern
matches, the transform inserts the ACME location (so the result serves it). -/
theorem addAcme_missing {block out : List Char}
    (h : hasSubstr block litWellKnown = false)
    (hrep : replaceAux acmeLocationIns block = some out) :
    addAcmeLocation block = out ∧ hasSubstr out litWellKnown = true := by
  constructor
  · unfold addAcmeLocation jsReplaceServerIns
    rw [if_neg (by simp [h]), hrep]
    rfl
  · obtain ⟨a, b, hab⟩ := replaceAux_shape block acmeLocationIns out hrep
    subst hab
    have hins : hasSubstr acmeLocationIns litWellKnown = true := by decide
    obtain ⟨u, v, huv⟩ := (hasSubstr_iff _ _).1 hins
    exact (hasSubstr_iff _ _).2 ⟨a ++ u, v ++ b, by simp [huv]⟩

/-! ## Lemmas: backups, renewAll, challenge phase -/

theorem latestBackup_mem :
    ∀ (bs : List (Nat × List Char)) (m : Nat × List Char),
      latestBackup bs = some m → m ∈ bs := by
  intro bs
  induction bs with
  | nil => intro m h; exact Option.noConfusion h
  | cons b bs' ih =>
    intro m h
    cases hrec : latestBackup bs' with
    | none =>
      simp only [latestBackup, hrec, Option.some.injEq] at h
      rw [← h]
      exact List.mem_cons_self b bs'
    | some m' =>
      simp only [latestBackup, hrec] at h
      split at h
      · exact List.mem_cons_of_mem b (Option.some.inj h ▸ ih m' hrec)
      · rw [← Option.some.inj h]
        exact List.mem_cons_self b bs' 

/-- The freshly taken backup is the one `ls -t | head -1` selects, because
its timestamp strictly dominates every pre-existing backup. -/
theorem latestBackup_fresh (now : Nat) (c : List Char)
    (bs : List (Nat × List Char)) (hfresh : ∀ b ∈ bs, b.1 < now) :
    latestBackup ((now, c) :: bs) = some (now, c) := by
  unfold latestBackup
  cases hrec : latestBackup bs with
  | none => rfl
  | some m =>
    have hm : m ∈ bs := latestBackup_mem bs m hrec
    show (if (now, c).1 < m.1 then some m else some (now, c)) = some (now, c)
    rw [if_neg (by have := hfresh m hm; simp only; omega)]

theorem renewAll_characterisation (f : List Char → RenewOut) :
    ∀ (domains : List (List Char)) (acc : RenewResults),
      domains.foldl (renewAllStep f) acc =
        { renewed := acc.renewed ++ domains.filter (fun d => f d = .issued)
          skipped := acc.skipped ++ domains.filter (fun d => f d = .notDue)
          failed := acc.failed ++ domains.filterMap (fun d =>
            match f d with
            | .failedWith e => some (d, e)
            | _ => none) } := by
  intro domains
  induction domains with
  | nil => intro acc; simp [List.filter, List.filterMap]
  | cons d ds ih =>
    intro acc
    rw [List.foldl_cons, ih]
    unfold renewAllStep
    cases hfd : f d with
    | issued => simp [List.filter_cons, List.filterMap_cons, hfd]
    | notDue => simp [List.filter_cons, List.filterMap_cons, hfd]
    | failedWith e => simp [List.filter_cons, List.filterMap_cons, hfd]

theorem runChallenges_ok_mem (challengeType : List Char)
    (oracle : Authz → Except (List Char) Unit) :
    ∀ (authzs : List Authz), runChallenges challengeType oracle authzs = .ok () →
      ∀ a ∈ authzs, ∃ c, findChallenge a challengeType = some c ∧
        oracle a = .ok () := by
  intro authzs
  induction authzs with
  | nil => intro _ a ha; simp at ha
  | cons a0 rest ih =>
    intro hok a ha
    unfold runChallenges at hok
    cases hpc : processChallenge challengeType oracle a0 with
    | error e => rw [hpc] at hok; exact Except.noConfusion hok
    | ok _ =>
      rw [hpc] at hok
      rcases List.mem_cons.1 ha with rfl | ha'
      · unfold processChallenge at hpc
        cases hfc : findChallenge a challengeType with
        | none => rw [hfc] at hpc; exact Except.noConfusion hpc
        | some c =>
          rw [hfc] at hpc
          exact ⟨c, rfl, hpc⟩
      · exact ih hok a ha'

theorem cleanupList_covers (challengeType : List Char) :
    ∀ (authzs : List Authz),
      (∀ a ∈ authzs, ∃ c, findChallenge a challengeType = some c) →
      (cleanupList challengeType authzs).length = authzs.length ∧
      ∀ a ∈ authzs, ∃ c, findChallenge a challengeType = some c ∧
        (a.ident, c.2) ∈ cleanupList challengeType authzs := by
  intro authzs
  induction authzs with
  | nil => intro _; exact ⟨rfl, by simp⟩
  | cons a0 rest ih =>
    intro hall
    obtain ⟨c0, hc0⟩ := hall a0 (by simp)
    obtain ⟨hlen, hmem⟩ := ih (fun a ha => hall a (by simp [ha]))
    have hstep : cleanupList challengeType (a0 :: rest)
        = (a0.ident, c0.2) :: cleanupList challengeType rest := by
      unfold cleanupList
      rw [List.filterMap_cons, hc0]
      rfl
    constructor
    · rw [hstep]
      simp [hlen]
    · intro a ha
      rcases List.mem_cons.1 ha with rfl | ha'
      · exact ⟨c0, hc0, by rw [hstep]; exact List.mem_cons_self _ _⟩
      · obtain ⟨c, hc, hcm⟩ := hmem a ha'
        exact ⟨c, hc, by rw [hstep]; exact List.mem_cons_of_mem _ hcm⟩

/-! ## Claim theorems -/

/-- C1: for every domain whose existing proxy config file is classified
present-with-TLS (the content contains `listen 443` or `ssl_certificate`),
`deploy` — on both the local and the remote path — returns the skipped
outcome with reason `already_has_https` and leaves the filesystem state
(config file and backups) exactly as it was: nothing is generated,
transformed, or written. -/
theorem deploy_skips_present_with_tls
    (remoteMode : Bool) (cfgWebRoot certsDir remoteCertsDir : List Char)
    (opts : DeployOpts) (orc : CmdOracle) (fs : Fs) (now : Nat)
    (domain content : List Char)
    (hconf : fs.conf = some content)
    (htls : hasHttpsMarker content = true) :
    deploy remoteMode cfgWebRoot certsDir remoteCertsDir opts orc fs now domain
      = (.skipped reasonAlreadyHasHttps, fs) := by
  unfold deploy deployLocal deployRemote
  cases remoteMode <;> simp [hconf, htls]

/-- Witness for C1 at a concrete secure config on both paths. -/
theorem deploy_skips_present_with_tls_witness :
    hasHttpsMarker tlsConfigFx = true ∧
    deploy false (("/var/www/html").toList) (("/certs").toList)
        (("/opt/auto-cert/certs").toList) {} { testPasses := true, reloadOk := true }
        { conf := some tlsConfigFx, backups := [] } 5 (("example.com").toList)
      = (.skipped reasonAlreadyHasHttps, { conf := some tlsConfigFx, backups := [] }) ∧
    deploy true (("/var/www/html").toList) (("/certs").toList)
        (("/opt/auto-cert/certs").toList) {} { testPasses := true, reloadOk := true }
        { conf := some tlsConfigFx, backups := [] } 5 (("example.com").toList)
      = (.skipped reasonAlreadyHasHttps, { conf := some tlsConfigFx, backups := [] }) :=
  ⟨by decide,
   deploy_skips_present_with_tls false _ _ _ _ _ _ 5 _ tlsConfigFx rfl (by decide),
   deploy_skips_present_with_tls true _ _ _ _ _ _ 5 _ tlsConfigFx rfl (by decide)⟩

/-- C3: `renew` issues iff the certificate is due (days-until-expiry at most
the threshold) or `force` is set; otherwise it returns the distinguishable
non-error `null` outcome; the default threshold is 30 days. -/
theorem renew_issues_iff_due_or_forced
    (force : Bool) (optDays : Option Int) (daysUntilExpiry : Int)
    (issueResult : List Char) :
    ((renew force optDays daysUntilExpiry issueResult).isSome
        ↔ (force = true ∨ daysUntilExpiry ≤ renewThreshold optDays)) ∧
    (renew force optDays daysUntilExpiry issueResult = none ∨
     renew force optDays daysUntilExpiry issueResult = some issueResult) ∧
    renewThreshold none = 30 := by
  refine ⟨?_, ?_, rfl⟩
  · by_cases hf : force = true
    · simp [renew, hf]
    · have hff : force = false := by simpa using hf
      by_cases hd : daysUntilExpiry > renewThreshold optDays
      · simp [renew, hff, hd]
        try omega
      · simp [renew, hff, hd]
        try omega
  · unfold renew
    split
    · exact Or.inl rfl
    · exact Or.inr rfl

/-- Witness for C3 at concrete inputs on both sides of the threshold. -/
theorem renew_issues_iff_witness :
    (((renew false none 40 (("paths").toList)).isSome
        ↔ (false = true ∨ (40 : Int) ≤ renewThreshold none)) ∧
     (renew false none 40 (("paths").toList) = none ∨
      renew false none 40 (("paths").toList) = some (("paths").toList)) ∧
     renewThreshold none = 30) ∧
    (((renew false none 12 (("paths").toList)).isSome
        ↔ (false = true ∨ (12 : Int) ≤ renewThreshold none)) ∧
     (renew false none 12 (("paths").toList) = none ∨
      renew false none 12 (("paths").toList) = some (("paths").toList)) ∧
     renewThreshold none = 30) :=
  ⟨renew_issues_iff_due_or_forced false none 40 _,
   renew_issues_iff_due_or_forced false none 12 _⟩

/-- C9: the DNS-01 strategy computes the TXT record value as the
base64url-encoded SHA-256 digest of the key authorization (deterministic,
checked against the standard SHA-256 test vector for `abc`), uses the
record name `_acme-challenge.<domain>`, and its prepare step waits a fixed
60000 ms — at least 60 seconds — before returning. -/
theorem dns01_record_and_wait (provider keyAuthorization domain : List Char) :
    dnsPrepare (some provider) keyAuthorization domain
        = .ok (getRecordName domain, computeRecordValue keyAuthorization, 60000) ∧
    getRecordName domain = (("_acme-challenge.").toList) ++ domain ∧
    computeRecordValue keyAuthorization
        = base64urlEncode (sha256 (utf8Bytes keyAuthorization)) ∧
    60 * 1000 ≤ 60000 ∧
    computeRecordValue (("abc").toList)
        = ("ungWv48Bz-pBQUDeXa4iI7ADYaOWF3qctBD_YfIAFa0").toList := by
  refine ⟨rfl, rfl, rfl, by omega, by decide⟩

/-- C10: recording a successful issuance for an already-registered domain
rewrites only `issuedAt`, `email` and (when truthy) `webRoot`; the entry's
`ssh` block and every other domain's entry are preserved. -/
theorem saveDomainConfig_frame (reg : Registry) (domain nowIso : List Char)
    (cfgEmail webRoot : Option (List Char)) (e : DomainEntry)
    (hdom : reg domain = some e) :
    (saveDomainConfig reg domain nowIso cfgEmail webRoot) domain
        = some { issuedAt := some nowIso, email := cfgEmail,
                 webRoot := if webRootTruthy webRoot then webRoot else e.webRoot,
                 ssh := e.ssh } ∧
    ∀ d, d ≠ domain → (saveDomainConfig reg domain nowIso cfgEmail webRoot) d = reg d := by
  unfold saveDomainConfig
  rw [hdom]
  constructor
  · simp
  · intro d hd
    simp [hd]

/-- Witness for C10: the ssh block and the other domain survive the save. -/
theorem saveDomainConfig_frame_witness :
    (saveDomainConfig regFx (("a.example").toList) (("2026-02-02T00:00:00.000Z").toList)
        (some (("new@example.com").toList)) (some (("/srv/www").toList)))
        (("a.example").toList)
      = some { issuedAt := some (("2026-02-02T00:00:00.000Z").toList),
               email := some (("new@example.com").toList),
               webRoot := if webRootTruthy (some (("/srv/www").toList))
                          then some (("/srv/www").toList) else entryAFx.webRoot,
               ssh := entryAFx.ssh } ∧
    (saveDomainConfig regFx (("a.example").toList) (("2026-02-02T00:00:00.000Z").toList)
        (some (("new@example.com").toList)) (some (("/srv/www").toList)))
        (("b.example").toList)
      = regFx (("b.example").toList) :=
  have h := saveDomainConfig_frame regFx (("a.example").toList)
    (("2026-02-02T00:00:00.000Z").toList) (some (("new@example.com").toList))
    (some (("/srv/www").toList)) entryAFx (by decide)
  ⟨h.1, h.2 (("b.example").toList) (by decide)⟩

/-- C2 (counterexample): on the remote path, after a transform with a
backup taken, a failed self-test raises the validation error but the
transformed file stays on disk — it is not byte-identical to the original,
refuting the claim that the rollback invariant holds on both paths. -/
theorem deployRemote_no_rollback_counterexample :
    (deployRemote {} { testPasses := false, reloadOk := true }
        { conf := some httpConfigFx, backups := [] } 7
        (("example.com").toList) (("/opt/auto-cert/certs").toList)).1
      = .failed errRemoteTestFailed ∧
    (deployRemote {} { testPasses := false, reloadOk := true }
        { conf := some httpConfigFx, backups := [] } 7
        (("example.com").toList) (("/opt/auto-cert/certs").toList)).2.backups
      = [(7, httpConfigFx)] ∧
    (deployRemote {} { testPasses := false, reloadOk := true }
        { conf := some httpConfigFx, backups := [] } 7
        (("example.com").toList) (("/opt/auto-cert/certs").toList)).2.conf
      ≠ some httpConfigFx := by
  refine ⟨by decide, by decide, by decide⟩

/-- C2 (amended): on the local path, when an existing config was
transformed, a backup was taken (backups enabled and the fresh backup's
timestamp dominates the earlier ones), and the self-test fails, the
operation raises the validation error and the most recent backup is
restored, leaving the file byte-identical to its pre-call content.  On the
remote path the error is raised but no restore happens (see the
counterexample). -/
theorem deployLocal_rollback_on_failed_test
    (cfgWebRoot certsDir : List Char) (opts : DeployOpts) (orc : CmdOracle)
    (fs : Fs) (now : Nat) (domain content t : List Char)
    (hconf : fs.conf = some content)
    (htls : hasHttpsMarker content = false)
    (hbackup : opts.backup = true)
    (htrans : transformHttpToHttps content domain (posixJoin certsDir domain) = .ok t)
    (htest : orc.testPasses = false)
    (hfresh : ∀ b ∈ fs.backups, b.1 < now) :
    deployLocal cfgWebRoot certsDir opts orc fs now domain
      = (.failed errTestFailed,
         { conf := some content, backups := (now, content) :: fs.backups }) := by
  have hbk : backupConfig fs now = { fs with backups := (now, content) :: fs.backups } := by
    unfold backupConfig
    rw [hconf]
  unfold deployLocal
  rw [hconf]
  simp only [htls, Bool.false_eq_true, if_false, hbackup, if_true, hbk, htrans]
  unfold localTestAndReload
  rw [htest]
  simp only [Bool.false_eq_true, if_false, hbackup, Bool.and_self, if_true]
  unfold restoreBackup
  rw [show ({ fs with backups := (now, content) :: fs.backups, conf := some t } : Fs).backups
        = (now, content) :: fs.backups from rfl]
  rw [latestBackup_fresh now content fs.backups hfresh]

/-- Witness for C2's amended theorem at a concrete HTTP config. -/
theorem deployLocal_rollback_witness :
    hasHttpsMarker httpConfigFx = false ∧
    (∃ t, transformHttpToHttps httpConfigFx (("example.com").toList)
        (posixJoin (("/certs").toList) (("example.com").toList)) = .ok t) ∧
    deployLocal (("/var/www/html").toList) (("/certs").toList) {}
        { testPasses := false, reloadOk := true }
        { conf := some httpConfigFx, backups := [(1, (("old").toList))] } 9
        (("example.com").toList)
      = (.failed errTestFailed,
         { conf := some httpConfigFx,
           backups := (9, httpConfigFx) :: [(1, (("old").toList))] }) := by
  have hsome : (transformHttpToHttps httpConfigFx (("example.com").toList)
      (posixJoin (("/certs").toList) (("example.com").toList))).toOption.isSome = true := by
    decide
  refine ⟨by decide, ?_, ?_⟩
  · cases htr : transformHttpToHttps httpConfigFx (("example.com").toList)
        (posixJoin (("/certs").toList) (("example.com").toList)) with
    | error e => rw [htr] at hsome; simp [Except.toOption] at hsome
    | ok t => exact ⟨t, rfl⟩
  · cases htr : transformHttpToHttps httpConfigFx (("example.com").toList)
        (posixJoin (("/certs").toList) (("example.com").toList)) with
    | error e => rw [htr] at hsome; simp [Except.toOption] at hsome
    | ok t =>
      exact deployLocal_rollback_on_failed_test _ _ {} _ _ 9 _ _ t rfl (by decide)
        rfl htr rfl (by decide)

/-- Helper: the three renewAll buckets partition the domain list. -/
theorem renewAll_bucket_length (f : List Char → RenewOut) :
    ∀ (domains : List (List Char)),
      (domains.filter (fun d => f d = .issued)).length +
      (domains.filter (fun d => f d = .notDue)).length +
      (domains.filterMap (fun d =>
        match f d with
        | .failedWith e => some (d, e)
        | _ => none)).length = domains.length := by
  intro domains
  induction domains with
  | nil => rfl
  | cons d ds ih =>
    cases hfd : f d with
    | issued => simp [List.filter_cons, List.filterMap_cons, hfd]; omega
    | notDue => simp [List.filter_cons, List.filterMap_cons, hfd]; omega
    | failedWith e => simp [List.filter_cons, List.filterMap_cons, hfd]; omega

/-- C4: `renewAll` processes every registered domain independently and runs
to completion: the renewed bucket is exactly the domains whose renew
issued, the skipped bucket exactly those not due, and the failed bucket
records each throwing domain with its message; the three buckets partition
the domain list. -/
theorem renewAll_partitions (f : List Char → RenewOut) (domains : List (List Char)) :
    (renewAll f domains).renewed = domains.filter (fun d => f d = .issued) ∧
    (renewAll f domains).skipped = domains.filter (fun d => f d = .notDue) ∧
    (renewAll f domains).failed = domains.filterMap (fun d =>
      match f d with
      | .failedWith e => some (d, e)
      | _ => none) ∧
    (renewAll f domains).renewed.length + (renewAll f domains).skipped.length +
      (renewAll f domains).failed.length = domains.length := by
  have h := renewAll_characterisation f domains {}
  unfold renewAll
  rw [h]
  refine ⟨by simp, by simp, by simp, ?_⟩
  simpa using renewAll_bucket_length f domains

/-- C6: in the challenge phase of an issuance, a failure of any
authorization's challenge processing re-raises the error with no cleanup
performed (proof files stay for inspection); when every authorization
succeeds, cleanup runs for every authorization's challenge unless the
caller opted out. -/
theorem issue_challenge_cleanup (challengeType : List Char)
    (oracle : Authz → Except (List Char) Unit) (cleanupEnabled : Bool)
    (authzs : List Authz) :
    (∀ e, runChallenges challengeType oracle authzs = .error e →
       issueChallengePhase challengeType oracle cleanupEnabled authzs = (.error e, [])) ∧
    (runChallenges challengeType oracle authzs = .ok () →
       (cleanupEnabled = false →
          issueChallengePhase challengeType oracle cleanupEnabled authzs = (.ok (), [])) ∧
       (cleanupEnabled = true →
          (issueChallengePhase challengeType oracle cleanupEnabled authzs).1 = .ok () ∧
          (issueChallengePhase challengeType oracle cleanupEnabled authzs).2.length
            = authzs.length ∧
          ∀ a ∈ authzs, ∃ c, findChallenge a challengeType = some c ∧
            (a.ident, c.2) ∈ (issueChallengePhase challengeType oracle cleanupEnabled authzs).2)) := by
  constructor
  · intro e he
    unfold issueChallengePhase
    rw [he]
  · intro hok
    have hall : ∀ a ∈ authzs, ∃ c, findChallenge a challengeType = some c :=
      fun a ha =>
        have ⟨c, hc, _⟩ := runChallenges_ok_mem challengeType oracle authzs hok a ha
        ⟨c, hc⟩
    obtain ⟨hlen, hmem⟩ := cleanupList_covers challengeType authzs hall
    constructor
    · intro hce
      unfold issueChallengePhase
      rw [hok, hce]
      rfl
    · intro hce
      unfold issueChallengePhase
      rw [hok, hce]
      exact ⟨rfl, by simpa using hlen, fun a ha => by simpa using hmem a ha⟩

/-- Witness for C6: two authorizations, an oracle that succeeds, cleanup
enabled — and the failing side at a failing oracle. -/
theorem issue_challenge_cleanup_witness :
    (issueChallengePhase (("http-01").toList) (fun _ => .ok ()) true [authzAFx, authzBFx]).1
        = .ok () ∧
    (issueChallengePhase (("http-01").toList) (fun _ => .ok ()) true [authzAFx, authzBFx]).2.length
        = ([authzAFx, authzBFx] : List Authz).length ∧
    (issueChallengePhase (("http-01").toList) (fun _ => .ok ()) false [authzAFx, authzBFx])
        = (.ok (), []) ∧
    (issueChallengePhase (("http-01").toList) (fun _ => .error (("boom").toList)) true
        [authzAFx, authzBFx])
        = (.error (("boom").toList), []) := by
  have hok : runChallenges (("http-01").toList) (fun _ => .ok ()) [authzAFx, authzBFx]
      = .ok () := rfl
  have herr : runChallenges (("http-01").toList) (fun _ => .error (("boom").toList))
      [authzAFx, authzBFx] = .error (("boom").toList) := rfl
  have h1 := (issue_challenge_cleanup (("http-01").toList) (fun _ => .ok ()) true
    [authzAFx, authzBFx]).2 hok
  have h2 := (issue_challenge_cleanup (("http-01").toList) (fun _ => .ok ()) false
    [authzAFx, authzBFx]).2 hok
  have h3 := (issue_challenge_cleanup (("http-01").toList)
    (fun _ => .error (("boom").toList)) true [authzAFx, authzBFx]).1 _ herr
  exact ⟨(h1.2 rfl).1, (h1.2 rfl).2.1, h2.1 rfl, h3⟩

/-- C5 (counterexample): on a bundle with two certificate blocks preceded
by extra text, the saved leaf and chain are the first and second blocks as
claimed, but the saved fullchain is the downloaded bundle verbatim — not
leaf + chain (with or without a separating newline). -/
theorem saveCertificate_fullchain_counterexample :
    (saveCertificate (("PK").toList) junkBundleFx).error = none ∧
    ((saveCertificate (("PK").toList) junkBundleFx).writes.getD 1 ([], [])).2 = pemBlockA ∧
    ((saveCertificate (("PK").toList) junkBundleFx).writes.getD 2 ([], [])).2 = pemBlockB ∧
    ((saveCertificate (("PK").toList) junkBundleFx).writes.getD 3 ([], [])).2 = junkBundleFx ∧
    ((saveCertificate (("PK").toList) junkBundleFx).writes.getD 3 ([], [])).2
      ≠ pemBlockA ++ pemBlockB ∧
    ((saveCertificate (("PK").toList) junkBundleFx).writes.getD 3 ([], [])).2
      ≠ pemBlockA ++ ('\n' :: pemBlockB) := by
  refine ⟨by decide, by decide, by decide, by decide, by decide, by decide⟩

/-- C5 (amended): splitting a bundle of the form
junk ++ block1 ++ sep ++ block2 (no begin-marker starting inside the junk
or the separator, no early end-marker inside the block bodies) yields
exactly the two blocks; the saved leaf is the first block, the saved chain
the second, and the saved fullchain is the original bundle string
verbatim.  A bundle with zero certificate blocks fails with the
malformed-bundle error after writing only the private key. -/
theorem saveCertificate_split (pk a g1 s g2 : List Char)
    (hg1 : NoMarkStart pemEnd g1 pemEnd)
    (hg2 : NoMarkStart pemEnd g2 pemEnd)
    (hskipA : NoMarkStart pemBegin a
      ((pemBegin ++ (g1 ++ pemEnd)) ++ (s ++ (pemBegin ++ (g2 ++ pemEnd)))))
    (hskipS : NoMarkStart pemBegin s (pemBegin ++ (g2 ++ pemEnd))) :
    splitCerts (a ++ ((pemBegin ++ (g1 ++ pemEnd)) ++ (s ++ (pemBegin ++ (g2 ++ pemEnd)))))
      = [pemBegin ++ (g1 ++ pemEnd), pemBegin ++ (g2 ++ pemEnd)] ∧
    saveCertificate pk (a ++ ((pemBegin ++ (g1 ++ pemEnd)) ++ (s ++ (pemBegin ++ (g2 ++ pemEnd)))))
      = { writes := [((("cert.key").toList), pk),
                     ((("cert.pem").toList), pemBegin ++ (g1 ++ pemEnd)),
                     ((("chain.pem").toList), pemBegin ++ (g2 ++ pemEnd)),
                     ((("fullchain.pem").toList),
                      a ++ ((pemBegin ++ (g1 ++ pemEnd)) ++ (s ++ (pemBegin ++ (g2 ++ pemEnd)))))],
          error := none } ∧
    (∀ (pk' b : List Char), splitCerts b = [] →
       saveCertificate pk' b = { writes := [((("cert.key").toList), pk')],
                                 error := some errBadCert }) := by
  have hsplit : splitCerts (a ++ ((pemBegin ++ (g1 ++ pemEnd)) ++ (s ++ (pemBegin ++ (g2 ++ pemEnd)))))
      = [pemBegin ++ (g1 ++ pemEnd), pemBegin ++ (g2 ++ pemEnd)] := by
    unfold splitCerts
    rw [scanAll_skip_noMark tryPem pemBegin (fun _ hs => tryPem_none hs) _ _ hskipA]
    rw [scanAll_cons_match tryPem tryPem_consuming
      (tryPem_mk g1 (s ++ (pemBegin ++ (g2 ++ pemEnd))) hg1)]
    rw [scanAll_skip_noMark tryPem pemBegin (fun _ hs => tryPem_none hs) _ _ hskipS]
    have h2 := tryPem_mk g2 [] hg2
    rw [show (pemBegin ++ (g2 ++ pemEnd)) ++ ([] : List Char) = pemBegin ++ (g2 ++ pemEnd)
      by simp] at h2
    rw [scanAll_cons_match tryPem tryPem_consuming h2]
    rfl
  refine ⟨hsplit, ?_, ?_⟩
  · unfold saveCertificate
    rw [hsplit]
    rfl
  · intro pk' b hb
    unfold saveCertificate
    rw [hb]

/-- Witness for C5's amended theorem at the junk-ful concrete bundle. -/
theorem saveCertificate_split_witness :
    splitCerts junkBundleFx = [pemBlockA, pemBlockB] ∧
    saveCertificate (("PK").toList) junkBundleFx
      = { writes := [((("cert.key").toList), (("PK").toList)),
                     ((("cert.pem").toList), pemBlockA),
                     ((("chain.pem").toList), pemBlockB),
                     ((("fullchain.pem").toList), junkBundleFx)],
          error := none } ∧
    saveCertificate (("PK").toList) (("no certs here").toList)
      = { writes := [((("cert.key").toList), (("PK").toList))],
          error := some errBadCert } := by
  have h := saveCertificate_split (("PK").toList) (("JUNK\n").toList)
    (("\nAA\n").toList) (("\n").toList) (("\nBB\n").toList)
    (by decide) (by decide) (by decide) (by decide)
  exact ⟨h.1, h.2.1, h.2.2 (("PK").toList) (("no certs here").toList) (by decide)⟩

/-- C7 (counterexample): `parseServerBlocks` on one balanced server block
whose nested closing brace sits at column 0 stops at that brace: the
extracted block is a strict truncation of the real block — the later
`listen 8080` directive is lost — refuting balanced-brace extraction. -/
theorem parseServerBlocks_truncates_counterexample :
    parseServerBlocks hardBlockFx = [hardBlockTrunc] ∧
    hardBlockTrunc ≠ hardBlockFx ∧
    hasSubstr hardBlockFx (("listen 8080").toList) = true ∧
    hasSubstr hardBlockTrunc (("listen 8080").toList) = false := by
  refine ⟨by decide, by decide, by decide, by decide⟩

/-- C7 (amended): extraction is the lazy scan
`server\s*\x7b([\s\S]*?)\n\x7d`, which terminates each block at the first
closing brace that directly follows a newline.  A server block is
extracted with its full body — nested braces included — exactly when no
such newline-brace pair occurs before the final one (all nested closers
indented); a column-0 nested closer truncates the block (see the
counterexample). -/
theorem parseServerBlocks_full_body (g : List Char)
    (hg : NoMarkStart nlBrace g nlBrace) :
    parseServerBlocks (litServerBrace ++ (g ++ nlBrace))
      = [litServerBrace ++ (g ++ nlBrace)] := by
  unfold parseServerBlocks
  rw [scanAll_cons_match tryServer tryServer_consuming (tryServer_mk g hg)]
  rfl

/-- Witness for C7's amended theorem: a block with a nested location whose
closing brace is indented is extracted in full. -/
theorem parseServerBlocks_full_body_witness :
    NoMarkStart nlBrace nestedBodyFx nlBrace ∧
    parseServerBlocks (litServerBrace ++ (nestedBodyFx ++ nlBrace))
      = [litServerBrace ++ (nestedBodyFx ++ nlBrace)] :=
  ⟨by decide, parseServerBlocks_full_body nestedBodyFx (by decide)⟩

/-- C8 (counterexample): an HTTP block whose single location both proxies
(`proxy_pass`, so it is not redirect-only) and contains a `return 301`
directive, and does not serve the challenge path, yields a synthesized
HTTPS block with zero location blocks — not the one the claim promises:
the filter drops any location containing the text `return 301`. -/
theorem createHttps_drops_mixed_location_counterexample :
    (matchLocations mixedLocBlockFx).length = 1 ∧
    hasSubstr ((matchLocations mixedLocBlockFx).getD 0 []) (("proxy_pass").toList) = true ∧
    hasSubstr ((matchLocations mixedLocBlockFx).getD 0 []) litWellKnown = false ∧
    matchLocations (createHttpsServerFromHttp mixedLocBlockFx (("d.example").toList)
        (("/opt/certs/d.example").toList) true) = [] := by
  refine ⟨by decide, by decide, by decide, by decide⟩

/-- C8 (amended): when none of the HTTP block's extracted locations
contains the text `return 301` or the challenge path (and the synthesized
header introduces no spurious location start), the synthesized HTTPS block
contains exactly the N extracted location blocks, verbatim; and the
challenge-proof location is inserted into the plaintext block only when it
is not already present, so the combined config gains no duplicate. -/
theorem transform_preserves_locations (B d c : List Char) (h2 : Bool)
    (hkeep : ∀ l ∈ matchLocations B,
       hasSubstr l litReturn301 = false ∧ hasSubstr l litWellKnown = false)
    (hhdr : NoMarkStart litLocation (httpsHeader d c h2)
              (locationsPart (matchLocations B))) :
    matchLocations (createHttpsServerFromHttp B d c h2) = matchLocations B ∧
    (hasSubstr B litWellKnown = true → addAcmeLocation B = B) ∧
    (∀ out, hasSubstr B litWellKnown = false →
       replaceAux acmeLocationIns B = some out →
       addAcmeLocation B = out ∧ hasSubstr out litWellKnown = true) := by
  refine ⟨matchLocations_createHttps B d c h2 ?_ hhdr,
          fun h => addAcme_present h,
          fun out h hr => addAcme_missing h hr⟩
  intro l hl
  have h := hkeep l hl
  unfold keepLocation
  simp [h.1, h.2]

/-- Witness for C8's amended theorem on a concrete HTTP config with one
proxying location. -/
theorem transform_preserves_locations_witness :
    matchLocations (createHttpsServerFromHttp httpConfigFx (("w.example").toList)
        (("/opt/certs/w.example").toList) true) = matchLocations httpConfigFx ∧
    hasSubstr (addAcmeLocation httpConfigFx) litWellKnown = true := by
  have h := transform_preserves_locations httpConfigFx (("w.example").toList)
      (("/opt/certs/w.example").toList) true (by decide)
      (noMarkStart_of_scan _ _ _ (by decide))
  refine ⟨h.1, ?_⟩
  cases hrep : replaceAux acmeLocationIns httpConfigFx with
  | none =>
    have hsome : (replaceAux acmeLocationIns httpConfigFx).isSome = true := by decide
    rw [hrep] at hsome
    simp at hsome
  | some out =>
    have h3 := h.2.2 out (by decide) hrep
    rw [h3.1]
    exact h3.2

end AutoCert
